import Mathlib

/-!
Verification of the lithography simulator's numeric core against its
specification.  The TypeScript sources are shallowly embedded: the
interleaved complex Float64Array buffers become functions from indices to
complex numbers, in-place passes become pure functions, and IEEE doubles
are modelled by exact real arithmetic.  Grids are indexed by natural
numbers; entries with row or column at or beyond N are junk, mirroring
out-of-bounds reads of the typed arrays, and theorems quantify over
in-range indices only.
-/

namespace LithoSpec

open Complex Finset

/-! ## FFT kernel (src fft module)

Data layout in the source is interleaved [re0, im0, re1, im1, ...]; a
sequence of N complex samples is modelled as a function from naturals to
the complex numbers. -/

/-- Reverse of the low m bits of a natural number.  The source loop
moves the least significant bit of x to the most significant position of
the result on each of the log2N iterations; recursively the low bit of x
gets weight 2 to the (m-1) and the remaining bits are reversed into the
low positions. -/
def bitRev : ℕ → ℕ → ℕ
  | 0, _ => 0
  | n + 1, x => x % 2 * 2 ^ n + bitRev n (x / 2)

/-- Twiddle factor for a butterfly stage with half-size half: the source
caches cos and sin of angle sign * pi * k / halfSize with sign = +1 for
the inverse transform and -1 for the forward transform; the pair
(cos a, sin a) is the complex number exp(a i). -/
noncomputable def twiddle (inv : Bool) (half k : ℕ) : ℂ :=
  Complex.exp ((((if inv then 1 else -1 : ℝ) * Real.pi * k / half : ℝ)) * Complex.I)

/-- One butterfly stage s of the radix-2 FFT, acting on the whole array.
The source updates, for every block and every k below halfSize, the pair
of entries at blockStart + k and blockStart + k + halfSize from their
previous values; entry i belongs to the lower half of its block when
i mod size < halfSize.  Both entries of a butterfly are read before
either is written, so the in-place update equals this pure function. -/
noncomputable def butterflyStage (inv : Bool) (s : ℕ) (x : ℕ → ℂ) : ℕ → ℂ := fun i =>
  let size := 2 ^ s
  let half := 2 ^ (s - 1)
  let k := i % size
  if k < half then x i + twiddle inv half k * x (i + half)
  else x (i - half) - twiddle inv half (k - half) * x i

/-- Butterfly stages s = 1 .. m applied in ascending order, as in the
source loop. -/
noncomputable def fftStages (inv : Bool) : ℕ → (ℕ → ℂ) → ℕ → ℂ
  | 0, x => x
  | s + 1, x => butterflyStage inv (s + 1) (fftStages inv s x)

/-- In-place radix-2 FFT on N complex samples.  The source first applies
the bit-reversal permutation (the swap loop, or the copy-out/copy-in path
for strided access, both realize y i = x (bitRev m i)), then the
butterfly stages, and for the inverse transform finally scales every
sample by 1/N.  The offset/stride parameters of the source merely select
the subsequence being transformed and disappear in this functional view.
The source computes log2N as the floored base-2 logarithm of N. -/
noncomputable def fft1d (N : ℕ) (inv : Bool) (x : ℕ → ℂ) : ℕ → ℂ :=
  let m := Nat.log2 N
  let y := fftStages inv m fun i => x (bitRev m i)
  if inv then fun i => y i / (N : ℂ) else y

/-- 2-D FFT on an N-by-N grid: the source transforms every row in place,
then every column (through a gathered column buffer, which is the
identity in this functional view). -/
noncomputable def fft2d (N : ℕ) (inv : Bool) (g : ℕ → ℕ → ℂ) : ℕ → ℕ → ℂ :=
  let rows : ℕ → ℕ → ℂ := fun r => fft1d N inv (g r)
  fun r c => fft1d N inv (fun r2 => rows r2 c) r

/-- Quadrant swap moving DC between corner and center.  The source loop
swaps, for each r below N/2 and each c, the entry at (r, c) with the one
at (r + N/2, (c + N/2) mod N).  For even N these transpositions are
pairwise disjoint and every cell takes part in exactly one of them, so
the result reads each cell from the diagonally opposite quadrant. -/
def fftshiftG (N : ℕ) (g : ℕ → ℕ → ℂ) : ℕ → ℕ → ℂ := fun r c =>
  g ((r + N / 2) % N) ((c + N / 2) % N)

/-- Discrete Fourier kernel exp(sign * 2 pi e / S * i), the value the
twiddle tables sample; used to state what the stages compute. -/
noncomputable def dftKernel (inv : Bool) (S e : ℕ) : ℂ :=
  Complex.exp ((((if inv then 1 else -1 : ℝ) * (2 * Real.pi * e / S) : ℝ)) * Complex.I)

/-! ## Zernike basis (src zernike module) -/

/-- Zernike aberration coefficients Z4 to Z11 (Noll ordering), in waves. -/
structure ZernikeCoeffs where
  z4 : ℝ
  z5 : ℝ
  z6 : ℝ
  z7 : ℝ
  z8 : ℝ
  z9 : ℝ
  z10 : ℝ
  z11 : ℝ

/-- All-zero coefficients, the source default. -/
def zernikeZero : ZernikeCoeffs := ⟨0, 0, 0, 0, 0, 0, 0, 0⟩

/-- Normalization constant for Z4 as the source writes it (a double
literal approximating the square root of 3). -/
def SQRT3 : ℝ := 1.7320508075688772

/-- Literal approximation of the square root of 5 from the source. -/
def SQRT5 : ℝ := 2.23606797749979

/-- Literal approximation of the square root of 6 from the source. -/
def SQRT6 : ℝ := 2.449489742783178

/-- Literal approximation of the square root of 8 from the source. -/
def SQRT8 : ℝ := 2.8284271247461903

/-- Z4 defocus term. -/
def zernZ4 (rho : ℝ) : ℝ := SQRT3 * (2 * rho * rho - 1)

/-- Z5 oblique astigmatism term. -/
noncomputable def zernZ5 (rho theta : ℝ) : ℝ := SQRT6 * rho * rho * Real.sin (2 * theta)

/-- Z6 vertical astigmatism term. -/
noncomputable def zernZ6 (rho theta : ℝ) : ℝ := SQRT6 * rho * rho * Real.cos (2 * theta)

/-- Z7 vertical coma term. -/
noncomputable def zernZ7 (rho theta : ℝ) : ℝ :=
  SQRT8 * (3 * rho * rho * rho - 2 * rho) * Real.sin theta

/-- Z8 horizontal coma term. -/
noncomputable def zernZ8 (rho theta : ℝ) : ℝ :=
  SQRT8 * (3 * rho * rho * rho - 2 * rho) * Real.cos theta

/-- Z9 spherical aberration term. -/
def zernZ9 (rho : ℝ) : ℝ := SQRT5 * (6 * (rho * rho) * (rho * rho) - 6 * (rho * rho) + 1)

/-- Z10 oblique trefoil term. -/
noncomputable def zernZ10 (rho theta : ℝ) : ℝ := SQRT8 * rho * rho * rho * Real.sin (3 * theta)

/-- Z11 vertical trefoil term. -/
noncomputable def zernZ11 (rho theta : ℝ) : ℝ := SQRT8 * rho * rho * rho * Real.cos (3 * theta)

/-- Total Zernike phase error: the source accumulates the terms in order,
short-circuiting any term whose coefficient is zero. -/
noncomputable def zernikePhaseError (rho theta : ℝ) (z : ZernikeCoeffs) : ℝ :=
  (if z.z4 ≠ 0 then z.z4 * zernZ4 rho else 0)
    + (if z.z5 ≠ 0 then z.z5 * zernZ5 rho theta else 0)
    + (if z.z6 ≠ 0 then z.z6 * zernZ6 rho theta else 0)
    + (if z.z7 ≠ 0 then z.z7 * zernZ7 rho theta else 0)
    + (if z.z8 ≠ 0 then z.z8 * zernZ8 rho theta else 0)
    + (if z.z9 ≠ 0 then z.z9 * zernZ9 rho else 0)
    + (if z.z10 ≠ 0 then z.z10 * zernZ10 rho theta else 0)
    + (if z.z11 ≠ 0 then z.z11 * zernZ11 rho theta else 0)

/-! ## Pupil filter (src pupil module) -/

/-- Optical parameters of the simulated stepper. -/
structure PupilParams where
  wavelength : ℝ
  na : ℝ
  sigma : ℝ
  defocus : ℝ
  zernike : ZernikeCoeffs

/-- Pixel size in nanometers, a constant of the core. -/
def pixelSize : ℝ := 19.53125

/-- Spatial-frequency bin spacing 1 / (N * pixelSize). -/
noncomputable def pupilDf (N : ℕ) : ℝ := 1 / (N * pixelSize)

/-- Centered frequency coordinate of row (or column) index r:
(r - N/2) * df, where N/2 is the integer half the source computes with a
shift. -/
noncomputable def pupilFreq (N r : ℕ) : ℝ := ((r : ℝ) - ((N / 2 : ℕ) : ℝ)) * pupilDf N

/-- Squared radial frequency of bin (r, c): fx^2 + fy^2 with fx from the
column and fy from the row. -/
noncomputable def pupilFreqSq (N r c : ℕ) : ℝ :=
  pupilFreq N c * pupilFreq N c + pupilFreq N r * pupilFreq N r

/-- Effective cutoff frequency NA * (1 + sigma) / wavelength. -/
noncomputable def pupilFCutoff (p : PupilParams) : ℝ :=
  p.na * (1 + p.sigma) / p.wavelength

/-- Squared cutoff, computed once per call in the source. -/
noncomputable def pupilFCutoffSq (p : PupilParams) : ℝ := pupilFCutoff p * pupilFCutoff p

/-- The source guards the Zernike phase computation by a boolean that is
true when some coefficient is nonzero. -/
def hasZernike (z : ZernikeCoeffs) : Prop :=
  z.z4 ≠ 0 ∨ z.z5 ≠ 0 ∨ z.z6 ≠ 0 ∨ z.z7 ≠ 0 ∨ z.z8 ≠ 0 ∨ z.z9 ≠ 0 ∨ z.z10 ≠ 0 ∨ z.z11 ≠ 0

/-- Two-argument arctangent; the quadrant-aware angle of the point
(x, y), as the source's Math.atan2(y, x).  Modelled by the principal
argument of the complex number x + y i. -/
noncomputable def atan2 (y x : ℝ) : ℝ := Complex.arg ⟨x, y⟩

open Classical in
/-- Phase accumulated at bin (r, c): a defocus quadratic term (guarded by
defocusNm being nonzero) plus, when some Zernike coefficient is nonzero,
2 pi times the Zernike phase error at normalized polar coordinates. -/
noncomputable def pupilPhase (N : ℕ) (p : PupilParams) (r c : ℕ) : ℝ :=
  (if p.defocus * 1000 ≠ 0 then
      Real.pi * p.wavelength * (p.defocus * 1000) * pupilFreqSq N r c
    else 0)
    + (if hasZernike p.zernike then
        2 * Real.pi *
          zernikePhaseError (Real.sqrt (pupilFreqSq N r c) / pupilFCutoff p)
            (atan2 (pupilFreq N r) (pupilFreq N c)) p.zernike
      else 0)

/-- Pupil filter on a centered spectrum: bins outside the aperture are
zeroed; in-aperture bins are rotated by the accumulated phase, the
rotation being skipped (leaving the sample untouched) when the phase is
exactly zero.  The source's rotation by (cos phi, sin phi) is
multiplication by exp(phi i). -/
noncomputable def applyPupil (N : ℕ) (p : PupilParams) (g : ℕ → ℕ → ℂ) : ℕ → ℕ → ℂ :=
  fun r c =>
    if pupilFreqSq N r c > pupilFCutoffSq p then 0
    else if pupilPhase N p r c ≠ 0 then
      Complex.exp ((pupilPhase N p r c : ℝ) * Complex.I) * g r c
    else g r c

/-! ## Pipeline (src pipeline module).  The grid size is the module
constant N = 256. -/

/-- Complex field after the six spectral passes: load the mask as the
real part, forward FFT, shift DC to center, pupil filter, shift back,
inverse FFT. -/
noncomputable def pipelineField (mask : ℕ → ℕ → ℝ) (p : PupilParams) : ℕ → ℕ → ℂ :=
  fft2d 256 true
    (fftshiftG 256 (applyPupil 256 p (fftshiftG 256 (fft2d 256 false fun r c => (mask r c : ℂ)))))

/-- Unnormalized intensity re^2 + im^2 of the field. -/
noncomputable def rawIntensity (mask : ℕ → ℕ → ℝ) (p : PupilParams) : ℕ → ℕ → ℝ :=
  fun r c => Complex.normSq (pipelineField mask p r c)

/-- Largest grid entry of an intensity image. -/
noncomputable def gridMax (I : ℕ → ℕ → ℝ) : ℝ :=
  Finset.univ.sup' Finset.univ_nonempty fun q : Fin 256 × Fin 256 => I q.1 q.2

/-- Maximum tracked by the source loop: it starts at 0 and raises it past
every computed entry, hence it is the larger of 0 and the grid maximum. -/
noncomputable def maxIntensity (I : ℕ → ℕ → ℝ) : ℝ := max 0 (gridMax I)

/-- Full pipeline: intensity image, normalized by multiplying every entry
by 1/max when the maximum is positive and left untouched (all zeros)
otherwise.  The elapsed-time output is not modelled. -/
noncomputable def runPipeline (mask : ℕ → ℕ → ℝ) (p : PupilParams) : ℕ → ℕ → ℝ :=
  let I := rawIntensity mask p
  let M := maxIntensity I
  if 0 < M then fun r c => I r c * (1 / M) else I

/-- Row-major flattening of a grid image, the layout of the Float32Array
the pipeline returns. -/
def flattenI (I : ℕ → ℕ → ℝ) : ℕ → ℝ := fun i => I (i / 256) (i % 256)

/-! ## CD measurement and Bossung sweep (src process-window module) -/

/-- Scan state of the CD loop: best run length so far, its center column
(-1 before any run, as in the source), and the start of the currently
open run (none encodes the source's -1 sentinel). -/
structure CDState where
  bestLen : ℕ
  bestCenter : ℝ
  runStart : Option ℕ

/-- Printedness of column i for the CD scan: the source reads the center
row (offset 128 * 256) of the flattened intensity and compares the
dose-scaled value against the fixed threshold 1.0; the loop runs one past
the last column and index N never prints. -/
def cdPrinted (I : ℕ → ℝ) (dose : ℝ) (i : ℕ) : Prop :=
  i < 256 ∧ I (128 * 256 + i) * dose ≥ 1

open Classical in
/-- One iteration of the CD scan at column i: open a run on a rising
edge; on a falling edge close it and adopt it when it is strictly longer
than the best, or as long and with center strictly closer to column
N/2 = 128. -/
noncomputable def cdStep (I : ℕ → ℝ) (dose : ℝ) (st : CDState) (i : ℕ) : CDState :=
  if cdPrinted I dose i then
    match st.runStart with
    | none => { st with runStart := some i }
    | some _ => st
  else
    match st.runStart with
    | none => st
    | some rs =>
        let len := i - rs
        let center : ℝ := (rs : ℝ) + (len : ℝ) / 2
        if len > st.bestLen ∨ (len = st.bestLen ∧ |center - 128| < |st.bestCenter - 128|) then
          { bestLen := len, bestCenter := center, runStart := none }
        else { st with runStart := none }

/-- CD measurement: scan columns 0 .. N of the center row and return the
best run length times the pixel size in nanometers. -/
noncomputable def measureCD (I : ℕ → ℝ) (dose : ℝ) : ℝ :=
  (((List.range 257).foldl (cdStep I dose) ⟨0, -1, none⟩).bestLen : ℝ) * pixelSize

/-- A maximal contiguous printed run for predicate P: l consecutive
printed columns starting at s, delimited on the left by the image edge or
an unprinted column and on the right by an unprinted column (index 256,
the virtual boundary past the last column, never prints). -/
def IsRun (P : ℕ → Prop) (s l : ℕ) : Prop :=
  0 < l ∧ (∀ t < l, P (s + t)) ∧ ¬P (s + l) ∧ (s = 0 ∨ ¬P (s - 1))

open Classical in
/-- Length of the printed streak ending just before column j. -/
noncomputable def streak (P : ℕ → Prop) : ℕ → ℕ
  | 0 => 0
  | j + 1 => if P j then streak P j + 1 else 0

open Classical in
/-- Largest closed-run length among runs closing strictly before column
j: a run closes at an unprinted column whose streak is positive. -/
noncomputable def cmax (P : ℕ → Prop) : ℕ → ℕ
  | 0 => 0
  | j + 1 => if P j then cmax P j else max (cmax P j) (streak P j)

/-- Sweep request: focus range and step count, dose range and level
count. -/
structure BossungParams where
  focusRange : ℝ × ℝ
  focusSteps : ℕ
  doseRange : ℝ × ℝ
  doseSteps : ℕ

/-- One (focus, cd) sample of a Bossung curve. -/
structure BossungPoint where
  focus : ℝ
  cd : ℝ

/-- One curve: its dose and its samples in focus order. -/
structure BossungCurve where
  dose : ℝ
  points : List BossungPoint

/-- Sweep result; the wall-time field of the source is not modelled. -/
structure BossungResult where
  curves : List BossungCurve
  focusValues : List ℝ
  doseValues : List ℝ
  pipelineRuns : ℕ

/-- Linear interpolation with the single-step midpoint special case. -/
noncomputable def linspace (lo hi : ℝ) (steps : ℕ) : List ℝ :=
  if steps = 1 then [(lo + hi) / 2]
  else (List.range steps).map fun i : ℕ => lo + (hi - lo) * (i : ℝ) / ((steps - 1 : ℕ) : ℝ)

/-- Bossung sweep: one pipeline run per focus value (with the base
parameters overridden by that defocus), whose intensity is reused to
measure CD at every dose; the (focus, cd) point is appended to the curve
of each dose.  The reported pipelineRuns is the length of the focus
list. -/
noncomputable def runBossungSweep (mask : ℕ → ℕ → ℝ) (base : PupilParams)
    (sp : BossungParams) : BossungResult :=
  let focusValues := linspace sp.focusRange.1 sp.focusRange.2 sp.focusSteps
  let doseValues := linspace sp.doseRange.1 sp.doseRange.2 sp.doseSteps
  let curves0 := doseValues.map fun d => ({ dose := d, points := [] } : BossungCurve)
  let curves := focusValues.foldl
    (fun cs f =>
      let inten := flattenI (runPipeline mask { base with defocus := f })
      (cs.zip doseValues).map fun q =>
        { dose := q.1.dose, points := q.1.points ++ [{ focus := f, cd := measureCD inten q.2 }] })
    curves0
  { curves := curves, focusValues := focusValues, doseValues := doseValues,
    pipelineRuns := focusValues.length }

/-! ## Observable parameter store (src state module)

The store holds a mutable state and a pending flag; every setter mutates
the state and then calls scheduleNotify, which arms the flag and queues a
callback for the next display tick when the flag was clear.  The armed
flag and the queued callback coincide, so a machine state is the value
plus the flag.  A listener is modelled by the list of mutations it
performs when invoked with the state it observes. -/

/-- Store machine state: current value and whether a notification is
pending (equivalently, whether a display-tick callback is queued). -/
structure StoreState (S : Type) where
  val : S
  pending : Bool

/-- Effect of one setter call: mutate the state, then scheduleNotify
(arm the pending flag; if it was already armed, nothing more happens, so
the flag simply becomes true). -/
def applySetter {S : Type} (st : StoreState S) (f : S → S) : StoreState S :=
  ⟨f st.val, true⟩

/-- The queued callback body: clear the pending flag, then invoke every
listener in subscription order with the current state; the mutations a
listener performs go through the setters.  Returns the final machine
state and the list of states observed, one entry per listener in
order. -/
def invokeAll {S : Type} : List (S → List (S → S)) → StoreState S → StoreState S × List S
  | [], st => (st, [])
  | fn :: rest, st =>
      let obs := st.val
      let st1 := (fn st.val).foldl applySetter st
      let res := invokeAll rest st1
      (res.1, obs :: res.2)

/-- One display tick: when a callback is queued (pending), run it —
clearing the flag first, as the source does — otherwise do nothing and
report no invocations. -/
def runTick {S : Type} (L : List (S → List (S → S))) (st : StoreState S) :
    StoreState S × List S :=
  if st.pending then invokeAll L { st with pending := false } else (st, [])

/-- External events driving the store: a setter call or a display
tick. -/
inductive StoreOp (S : Type) where
  | set (f : S → S)
  | tick

/-- Run a sequence of events, collecting the observation log of every
tick. -/
def runOps {S : Type} (L : List (S → List (S → S))) :
    StoreState S → List (StoreOp S) → StoreState S × List (List S)
  | st, [] => (st, [])
  | st, StoreOp.set f :: rest => runOps L (applySetter st f) rest
  | st, StoreOp.tick :: rest =>
      let t := runTick L st
      let res := runOps L t.1 rest
      (res.1, t.2 :: res.2)

/-! ## Pipeline buffer discipline (for the frame property)

The pipeline owns three arrays: the caller's mask (read only), the
module-private complex scratch buffer (flat interleaved, 2 * N * N
doubles), and the intensity output allocated fresh on every call.  The
state-passing rendering makes every write target explicit. -/

/-- The three buffers visible to one pipeline call, each modelled as a
flat array. -/
structure PipelineBuffers where
  mask : ℕ → ℝ
  scratch : ℕ → ℝ
  out : ℕ → ℝ

/-- Buffer-level pipeline: step 1 overwrites the first 2 * N * N scratch
entries with the mask in the real slots and zero in the imaginary slots;
steps 2-6 rewrite those entries with the spectral passes; step 7 fills
the freshly allocated output with re^2 + im^2 from scratch (entries past
N * N do not exist and are modelled as the allocation's zeros); step 8
rescales the output in place when its maximum is positive.  The mask
buffer is never a write target. -/
noncomputable def runPipelineBuf (p : PupilParams) (st : PipelineBuffers) : PipelineBuffers :=
  let loaded : ℕ → ℝ := fun j =>
    if j < 2 * (256 * 256) then (if j % 2 = 0 then st.mask (j / 2) else 0) else st.scratch j
  let g : ℕ → ℕ → ℂ := fun r c => ⟨loaded ((r * 256 + c) * 2), loaded ((r * 256 + c) * 2 + 1)⟩
  let g6 := fft2d 256 true (fftshiftG 256 (applyPupil 256 p (fftshiftG 256 (fft2d 256 false g))))
  let scratch6 : ℕ → ℝ := fun j =>
    if j < 2 * (256 * 256) then
      (if j % 2 = 0 then (g6 (j / 2 / 256) (j / 2 % 256)).re else (g6 (j / 2 / 256) (j / 2 % 256)).im)
    else st.scratch j
  let I : ℕ → ℕ → ℝ := fun r c => Complex.normSq (g6 r c)
  let M := maxIntensity I
  let out7 : ℕ → ℝ := fun i => if i < 256 * 256 then I (i / 256) (i % 256) else 0
  let out8 : ℕ → ℝ := if 0 < M then fun i => out7 i * (1 / M) else out7
  { mask := st.mask, scratch := scratch6, out := out8 }

/-! ## Concrete inputs used by the end-to-end scenarios -/

/-- Impulse mask: a single 1 at (128, 128). -/
def maskImpulse : ℕ → ℕ → ℝ := fun r c => if r = 128 ∧ c = 128 then 1 else 0

/-- Wide-open optics of scenario 2: NA 1.4, sigma 1, wavelength 193,
zero defocus, zero aberrations. -/
def paramsImpulse : PupilParams :=
  { wavelength := 193, na := 1.4, sigma := 1, defocus := 0, zernike := zernikeZero }

open Classical in
/-- Number of frequency bins the pupil aperture keeps (bins whose squared
radial frequency does not exceed the squared cutoff). -/
noncomputable def apertureCount (p : PupilParams) : ℕ :=
  (Finset.univ.filter fun q : Fin 256 × Fin 256 =>
    ¬(pupilFreqSq 256 q.1 q.2 > pupilFCutoffSq p)).card

/-- The documented slider ranges of section 6 of the specification. -/
def paramsInRange (p : PupilParams) : Prop :=
  193 ≤ p.wavelength ∧ p.wavelength ≤ 365 ∧
    0.1 ≤ p.na ∧ p.na ≤ 1.4 ∧
    0 ≤ p.sigma ∧ p.sigma ≤ 1 ∧
    -2 ≤ p.defocus ∧ p.defocus ≤ 2

/-! ## Kernel algebra -/

theorem dftKernel_zero (inv : Bool) (S : ℕ) : dftKernel inv S 0 = 1 := by
  cases inv <;> simp [dftKernel]

theorem dftKernel_ne_zero (inv : Bool) (S e : ℕ) : dftKernel inv S e ≠ 0 :=
  Complex.exp_ne_zero _

theorem dftKernel_nat_mul (inv : Bool) (S k e : ℕ) :
    dftKernel inv S (k * e) = dftKernel inv S e ^ k := by
  cases inv <;>
  · unfold dftKernel
    rw [← Complex.exp_nat_mul]
    congr 1
    push_cast
    ring

theorem dftKernel_add (inv : Bool) (S a b : ℕ) :
    dftKernel inv S (a + b) = dftKernel inv S a * dftKernel inv S b := by
  cases inv <;>
  · unfold dftKernel
    rw [← Complex.exp_add]
    congr 1
    push_cast
    ring

theorem dftKernel_self (inv : Bool) {S : ℕ} (hS : S ≠ 0) : dftKernel inv S S = 1 := by
  have hS0 : (S : ℝ) ≠ 0 := Nat.cast_ne_zero.mpr hS
  have harg : (2 * Real.pi * S / S : ℝ) = 2 * Real.pi := by
    field_simp
  cases inv
  · unfold dftKernel
    rw [if_neg (by simp), harg]
    rw [show ((((-1 : ℝ) * (2 * Real.pi) : ℝ)) : ℂ) * Complex.I
        = (-1 : ℤ) * (2 * (Real.pi : ℂ) * Complex.I) by push_cast; ring]
    exact Complex.exp_int_mul_two_pi_mul_I (-1)
  · unfold dftKernel
    rw [if_pos rfl, harg]
    rw [show ((((1 : ℝ) * (2 * Real.pi) : ℝ)) : ℂ) * Complex.I
        = 2 * (Real.pi : ℂ) * Complex.I by push_cast; ring]
    exact Complex.exp_two_pi_mul_I

theorem dftKernel_half_neg_one (inv : Bool) {S : ℕ} (hS : S ≠ 0) :
    dftKernel inv (2 * S) S = -1 := by
  have hS0 : (S : ℝ) ≠ 0 := Nat.cast_ne_zero.mpr hS
  have harg : (2 * Real.pi * S / ((2 * S : ℕ) : ℝ) : ℝ) = Real.pi := by
    push_cast
    field_simp
    ring
  cases inv
  · unfold dftKernel
    rw [if_neg (by simp), harg]
    rw [show ((((-1 : ℝ) * Real.pi : ℝ)) : ℂ) * Complex.I = -((Real.pi : ℂ) * Complex.I) by
      push_cast; ring]
    rw [Complex.exp_neg, Complex.exp_pi_mul_I]
    norm_num
  · unfold dftKernel
    rw [if_pos rfl, harg]
    rw [show ((((1 : ℝ) * Real.pi : ℝ)) : ℂ) * Complex.I = (Real.pi : ℂ) * Complex.I by
      push_cast; ring]
    exact Complex.exp_pi_mul_I

theorem dftKernel_double (inv : Bool) (S e : ℕ) :
    dftKernel inv (2 * S) (2 * e) = dftKernel inv S e := by
  have harg : (2 * Real.pi * ((2 * e : ℕ) : ℝ) / ((2 * S : ℕ) : ℝ) : ℝ)
      = 2 * Real.pi * e / S := by
    push_cast
    rw [show (2 : ℝ) * Real.pi * (2 * (e : ℝ)) = 2 * (2 * Real.pi * e) by ring,
      show (2 : ℝ) * (S : ℝ) = 2 * (S : ℝ) by ring,
      mul_div_mul_left _ _ (two_ne_zero)]
  cases inv <;>
  · unfold dftKernel
    rw [harg]

theorem dftKernel_not (inv : Bool) (S e : ℕ) :
    dftKernel (!inv) S e = (dftKernel inv S e)⁻¹ := by
  cases inv <;>
  · unfold dftKernel
    rw [← Complex.exp_neg]
    congr 1
    push_cast
    norm_num

theorem dftKernel_true_eq_pow (S e : ℕ) :
    dftKernel true S e = Complex.exp (2 * (Real.pi : ℂ) * Complex.I / S) ^ e := by
  rw [← Complex.exp_nat_mul]
  unfold dftKernel
  congr 1
  push_cast
  norm_num
  ring

theorem dftKernel_orthogonal (inv : Bool) {S j t : ℕ} (hS : S ≠ 0) (hj : j < S) (ht : t < S) :
    ∑ k in Finset.range S, dftKernel inv S (j * k) * dftKernel (!inv) S (t * k)
      = if j = t then (S : ℂ) else 0 := by
  have hterm : ∀ k, dftKernel inv S (j * k) * dftKernel (!inv) S (t * k)
      = (dftKernel inv S j * (dftKernel inv S t)⁻¹) ^ k := by
    intro k
    rw [show j * k = k * j by ring, show t * k = k * t by ring, dftKernel_not,
      dftKernel_nat_mul, dftKernel_nat_mul, mul_pow, inv_pow]
  rcases eq_or_ne j t with hjt | hjt
  · subst hjt
    simp only [hterm, mul_inv_cancel₀ (dftKernel_ne_zero inv S j), one_pow]
    simp
  · rw [if_neg hjt]
    have hne : dftKernel inv S j ≠ dftKernel inv S t := by
      intro he
      apply hjt
      have hprim := Complex.isPrimitiveRoot_exp S hS
      cases inv
      · have hj2 : Complex.exp (2 * (Real.pi : ℂ) * Complex.I / S) ^ j
            = Complex.exp (2 * (Real.pi : ℂ) * Complex.I / S) ^ t := by
          have h1 := dftKernel_true_eq_pow S j
          have h2 := dftKernel_true_eq_pow S t
          have he2 : dftKernel (!false) S j = dftKernel (!false) S t := by
            rw [dftKernel_not, dftKernel_not, he]
          rw [show (!false) = true from rfl] at he2
          rw [h1, h2] at he2
          exact he2
        exact hprim.pow_inj hj ht hj2
      · have h1 := dftKernel_true_eq_pow S j
        have h2 := dftKernel_true_eq_pow S t
        rw [h1, h2] at he
        exact hprim.pow_inj hj ht he
    have hw1 : dftKernel inv S j * (dftKernel inv S t)⁻¹ ≠ 1 := by
      intro hw
      apply hne
      field_simp at hw
      exact (div_eq_one_iff_eq (dftKernel_ne_zero inv S t)).mp hw
    have hwS : (dftKernel inv S j * (dftKernel inv S t)⁻¹) ^ S = 1 := by
      rw [mul_pow, inv_pow, ← dftKernel_nat_mul, ← dftKernel_nat_mul,
        show S * j = j * S by ring, show S * t = t * S by ring,
        dftKernel_nat_mul, dftKernel_nat_mul, dftKernel_self inv hS]
      simp
    calc ∑ k in Finset.range S, dftKernel inv S (j * k) * dftKernel (!inv) S (t * k)
        = ∑ k in Finset.range S, (dftKernel inv S j * (dftKernel inv S t)⁻¹) ^ k := by
          exact Finset.sum_congr rfl fun k _ => hterm k
      _ = ((dftKernel inv S j * (dftKernel inv S t)⁻¹) ^ S - 1)
            / (dftKernel inv S j * (dftKernel inv S t)⁻¹ - 1) := geom_sum_eq hw1 S
      _ = 0 := by rw [hwS]; simp

/-! ## Bit reversal and the stage invariant -/

theorem bitRev_two_mul (n a : ℕ) : bitRev (n + 1) (2 * a) = bitRev n a := by
  simp only [bitRev]
  have h1 : 2 * a % 2 = 0 := by omega
  have h2 : 2 * a / 2 = a := by omega
  rw [h1, h2]
  ring

theorem bitRev_two_mul_add_one (n a : ℕ) : bitRev (n + 1) (2 * a + 1) = 2 ^ n + bitRev n a := by
  simp only [bitRev]
  have h1 : (2 * a + 1) % 2 = 1 := by omega
  have h2 : (2 * a + 1) / 2 = a := by omega
  rw [h1, h2]
  ring

theorem sum_range_two_mul {M : Type*} [AddCommMonoid M] (S : ℕ) (f : ℕ → M) :
    ∑ u in Finset.range (2 * S), f u
      = ∑ t in Finset.range S, f (2 * t) + ∑ t in Finset.range S, f (2 * t + 1) := by
  induction S with
  | zero => simp
  | succ n ih =>
      rw [show 2 * (n + 1) = 2 * n + 1 + 1 by ring, Finset.sum_range_succ, Finset.sum_range_succ,
        ih, Finset.sum_range_succ, Finset.sum_range_succ]
      abel

theorem twiddle_eq_dftKernel (inv : Bool) (h k : ℕ) :
    twiddle inv h k = dftKernel inv (2 * h) k := by
  have harg : (2 * Real.pi * (k : ℝ) / ((2 * h : ℕ) : ℝ) : ℝ) = Real.pi * k / h := by
    push_cast
    rw [show (2 : ℝ) * Real.pi * (k : ℝ) = 2 * (Real.pi * k) by ring,
      mul_div_mul_left _ _ (two_ne_zero)]
  cases inv <;>
  · unfold twiddle dftKernel
    rw [harg]
    congr 2
    ring

theorem log2_two_pow (m : ℕ) : Nat.log2 (2 ^ m) = m := by
  rw [Nat.log2_eq_log_two]
  exact Nat.log_pow one_lt_two m

theorem fftStages_eq_dft (inv : Bool) (m : ℕ) (x : ℕ → ℂ) :
    ∀ s, s ≤ m → ∀ a, a < 2 ^ (m - s) → ∀ j, j < 2 ^ s →
      fftStages inv s (fun i => x (bitRev m i)) (a * 2 ^ s + j)
        = ∑ t in Finset.range (2 ^ s),
            x (bitRev (m - s) a + t * 2 ^ (m - s)) * dftKernel inv (2 ^ s) (j * t) := by
  intro s
  induction s with
  | zero =>
      intro _ a _ j hj
      have hj0 : j = 0 := by omega
      subst hj0
      simp [fftStages, dftKernel_zero]
  | succ s ih =>
      intro hs a ha j hj
      have hS0 : (2 : ℕ) ^ s ≠ 0 := by positivity
      have hpow : (2 : ℕ) ^ (s + 1) = 2 * 2 ^ s := by rw [pow_succ]; ring
      have hs' : s ≤ m := by omega
      have hms : m - s = (m - (s + 1)) + 1 := by omega
      have hpown : (2 : ℕ) ^ (m - s) = 2 * 2 ^ (m - (s + 1)) := by rw [hms, pow_succ]; ring
      have h2a : 2 * a < 2 ^ (m - s) := by
        rw [hpown]; omega
      have h2a1 : 2 * a + 1 < 2 ^ (m - s) := by
        rw [hpown]
        have := ha
        omega
      have hmod : (a * 2 ^ (s + 1) + j) % 2 ^ (s + 1) = j := by
        rw [Nat.add_comm, Nat.add_mul_mod_self_right]
        exact Nat.mod_eq_of_lt hj
      simp only [fftStages, butterflyStage, Nat.add_sub_cancel, hmod]
      rw [hpow] at hj
      by_cases hcase : j < 2 ^ s
      · rw [if_pos hcase]
        have hpos2 : a * 2 ^ (s + 1) + j + 2 ^ s = (2 * a + 1) * 2 ^ s + j := by rw [hpow]; ring
        have hpos1 : a * 2 ^ (s + 1) + j = 2 * a * 2 ^ s + j := by rw [hpow]; ring
        rw [hpos2, hpos1, ih hs' (2 * a) h2a j hcase, ih hs' (2 * a + 1) h2a1 j hcase]
        rw [hms, bitRev_two_mul, bitRev_two_mul_add_one, twiddle_eq_dftKernel]
        rw [show (2:ℕ) ^ (s+1) = 2 * 2 ^ s from hpow, sum_range_two_mul]
        have heven : ∀ t, x (bitRev (m - (s + 1)) a + 2 * t * 2 ^ (m - (s + 1)))
              * dftKernel inv (2 * 2 ^ s) (j * (2 * t))
            = x (bitRev (m - (s + 1)) a + t * 2 ^ ((m - (s + 1)) + 1))
              * dftKernel inv (2 ^ s) (j * t) := by
          intro t
          rw [show j * (2 * t) = 2 * (j * t) by ring, dftKernel_double,
            show 2 * t * 2 ^ (m - (s + 1)) = t * 2 ^ ((m - (s + 1)) + 1) by rw [pow_succ]; ring]
        have hodd : ∀ t, x (bitRev (m - (s + 1)) a + (2 * t + 1) * 2 ^ (m - (s + 1)))
              * dftKernel inv (2 * 2 ^ s) (j * (2 * t + 1))
            = x (2 ^ (m - (s + 1)) + bitRev (m - (s + 1)) a + t * 2 ^ ((m - (s + 1)) + 1))
              * dftKernel inv (2 ^ s) (j * t) * dftKernel inv (2 * 2 ^ s) j := by
          intro t
          rw [show j * (2 * t + 1) = 2 * (j * t) + j by ring, dftKernel_add, dftKernel_double,
            show bitRev (m - (s + 1)) a + (2 * t + 1) * 2 ^ (m - (s + 1))
              = 2 ^ (m - (s + 1)) + bitRev (m - (s + 1)) a + t * 2 ^ ((m - (s + 1)) + 1) by
                rw [pow_succ]; ring]
          ring
        rw [Finset.sum_congr rfl fun t _ => heven t, Finset.sum_congr rfl fun t _ => hodd t,
          ← Finset.sum_mul, mul_comm (dftKernel inv (2 * 2 ^ s) j)]
      · rw [if_neg hcase]
        obtain ⟨j2, rfl⟩ : ∃ j2, j = 2 ^ s + j2 := ⟨j - 2 ^ s, by omega⟩
        have hj2lt : j2 < 2 ^ s := by omega
        have hsub : 2 ^ s + j2 - 2 ^ s = j2 := by omega
        have hpos3 : a * 2 ^ (s + 1) + (2 ^ s + j2) - 2 ^ s = 2 * a * 2 ^ s + j2 := by
          rw [hpow, show a * (2 * 2 ^ s) = 2 * a * 2 ^ s by ring]
          omega
        have hpos4 : a * 2 ^ (s + 1) + (2 ^ s + j2) = (2 * a + 1) * 2 ^ s + j2 := by
          rw [hpow]; ring
        rw [hsub, hpos3, hpos4, ih hs' (2 * a) h2a _ hj2lt, ih hs' (2 * a + 1) h2a1 _ hj2lt]
        rw [hms, bitRev_two_mul, bitRev_two_mul_add_one, twiddle_eq_dftKernel]
        rw [show (2:ℕ) ^ (s+1) = 2 * 2 ^ s from hpow, sum_range_two_mul]
        have heven : ∀ t, x (bitRev (m - (s + 1)) a + 2 * t * 2 ^ (m - (s + 1)))
              * dftKernel inv (2 * 2 ^ s) ((2 ^ s + j2) * (2 * t))
            = x (bitRev (m - (s + 1)) a + t * 2 ^ ((m - (s + 1)) + 1))
              * dftKernel inv (2 ^ s) (j2 * t) := by
          intro t
          rw [show (2 ^ s + j2) * (2 * t) = 2 * (t * 2 ^ s + j2 * t) by ring,
            dftKernel_double, dftKernel_add, dftKernel_nat_mul inv (2 ^ s) t (2 ^ s),
            dftKernel_self inv hS0, one_pow, one_mul,
            show 2 * t * 2 ^ (m - (s + 1)) = t * 2 ^ ((m - (s + 1)) + 1) by rw [pow_succ]; ring]
        have hodd : ∀ t, x (bitRev (m - (s + 1)) a + (2 * t + 1) * 2 ^ (m - (s + 1)))
              * dftKernel inv (2 * 2 ^ s) ((2 ^ s + j2) * (2 * t + 1))
            = -(x (2 ^ (m - (s + 1)) + bitRev (m - (s + 1)) a + t * 2 ^ ((m - (s + 1)) + 1))
              * dftKernel inv (2 ^ s) (j2 * t) * dftKernel inv (2 * 2 ^ s) j2) := by
          intro t
          rw [show (2 ^ s + j2) * (2 * t + 1) = 2 * (t * 2 ^ s + j2 * t) + (2 ^ s + j2) by ring,
            dftKernel_add, dftKernel_double, dftKernel_add inv (2 ^ s) (t * 2 ^ s),
            dftKernel_add inv (2 * 2 ^ s) (2 ^ s), dftKernel_nat_mul inv (2 ^ s) t (2 ^ s),
            dftKernel_self inv hS0, one_pow, one_mul, dftKernel_half_neg_one inv hS0,
            show bitRev (m - (s + 1)) a + (2 * t + 1) * 2 ^ (m - (s + 1))
              = 2 ^ (m - (s + 1)) + bitRev (m - (s + 1)) a + t * 2 ^ ((m - (s + 1)) + 1) by
                rw [pow_succ]; ring]
          ring
        rw [Finset.sum_congr rfl fun t _ => heven t, Finset.sum_congr rfl fun t _ => hodd t,
          Finset.sum_neg_distrib, ← Finset.sum_mul]
        ring

/-! ## The 1-D transform computes the DFT -/

theorem fft1d_eq_dft (inv : Bool) (m : ℕ) (x : ℕ → ℂ) {j : ℕ} (hj : j < 2 ^ m) :
    fft1d (2 ^ m) inv x j
      = (if inv then (((2 ^ m : ℕ) : ℂ))⁻¹ else 1)
        * ∑ t in Finset.range (2 ^ m), x t * dftKernel inv (2 ^ m) (j * t) := by
  have hzero : (0 : ℕ) < 2 ^ (m - m) := by positivity
  have hinv := fftStages_eq_dft inv m x m le_rfl 0 hzero j hj
  simp only [Nat.sub_self, pow_zero, mul_one, zero_mul, zero_add, bitRev] at hinv
  unfold fft1d
  rw [log2_two_pow]
  cases inv
  · simpa using hinv
  · simp only [if_true]
    rw [hinv, div_eq_mul_inv, mul_comm]

theorem dftKernel_conj (inv : Bool) (S e : ℕ) :
    (starRingEnd ℂ) (dftKernel inv S e) = dftKernel (!inv) S e := by
  cases inv <;>
  · unfold dftKernel
    rw [← Complex.exp_conj]
    congr 1
    rw [map_mul, Complex.conj_I, Complex.conj_ofReal]
    push_cast
    norm_num
    try ring

theorem fft1d_congr (inv : Bool) (m : ℕ) {x y : ℕ → ℂ} (h : ∀ i < 2 ^ m, x i = y i)
    {j : ℕ} (hj : j < 2 ^ m) : fft1d (2 ^ m) inv x j = fft1d (2 ^ m) inv y j := by
  rw [fft1d_eq_dft inv m x hj, fft1d_eq_dft inv m y hj]
  congr 1
  exact Finset.sum_congr rfl fun t ht => by rw [h t (Finset.mem_range.mp ht)]

theorem fft1d_comp (inv : Bool) (m : ℕ) (x : ℕ → ℂ) {j : ℕ} (hj : j < 2 ^ m) :
    fft1d (2 ^ m) (!inv) (fft1d (2 ^ m) inv x) j = x j := by
  have hN : (2 : ℕ) ^ m ≠ 0 := by positivity
  have hNC : (((2 ^ m : ℕ) : ℂ)) ≠ 0 := Nat.cast_ne_zero.mpr hN
  rw [fft1d_eq_dft (!inv) m _ hj]
  have hstep : ∀ k ∈ Finset.range (2 ^ m),
      fft1d (2 ^ m) inv x k * dftKernel (!inv) (2 ^ m) (j * k)
        = (if inv then (((2 ^ m : ℕ) : ℂ))⁻¹ else 1) *
          ∑ t in Finset.range (2 ^ m),
            x t * (dftKernel inv (2 ^ m) (k * t) * dftKernel (!inv) (2 ^ m) (j * k)) := by
    intro k hk
    rw [fft1d_eq_dft inv m x (Finset.mem_range.mp hk), mul_assoc, Finset.sum_mul]
    congr 1
    exact Finset.sum_congr rfl fun t _ => by ring
  rw [Finset.sum_congr rfl hstep, ← Finset.mul_sum, Finset.sum_comm]
  have horth : ∀ t ∈ Finset.range (2 ^ m),
      (∑ k in Finset.range (2 ^ m),
          x t * (dftKernel inv (2 ^ m) (k * t) * dftKernel (!inv) (2 ^ m) (j * k)))
        = x t * (if j = t then ((2 ^ m : ℕ) : ℂ) else 0) := by
    intro t ht
    rw [← Finset.mul_sum]
    congr 1
    have horth2 := dftKernel_orthogonal (!inv) hN hj (Finset.mem_range.mp ht)
    rw [Bool.not_not] at horth2
    rw [← horth2]
    exact Finset.sum_congr rfl fun k _ => by rw [show k * t = t * k by ring]; ring
  rw [Finset.sum_congr rfl horth]
  have hcollapse : ∀ t ∈ Finset.range (2 ^ m),
      x t * (if j = t then ((2 ^ m : ℕ) : ℂ) else 0)
        = if j = t then x t * ((2 ^ m : ℕ) : ℂ) else 0 := by
    intro t _
    split <;> simp
  rw [Finset.sum_congr rfl hcollapse, Finset.sum_ite_eq _ j _, if_pos (Finset.mem_range.mpr hj)]
  cases inv <;> (try simp) <;> (try field_simp)

theorem fft1d_parseval (m : ℕ) (x : ℕ → ℂ) :
    ∑ j in Finset.range (2 ^ m), ((Complex.normSq (fft1d (2 ^ m) false x j) : ℂ))
      = ((2 ^ m : ℕ) : ℂ) * ∑ t in Finset.range (2 ^ m), ((Complex.normSq (x t) : ℂ)) := by
  have hN : (2 : ℕ) ^ m ≠ 0 := by positivity
  have hstep : ∀ j ∈ Finset.range (2 ^ m),
      ((Complex.normSq (fft1d (2 ^ m) false x j) : ℂ))
        = ∑ t in Finset.range (2 ^ m), ∑ s in Finset.range (2 ^ m),
            x t * (starRingEnd ℂ) (x s)
              * (dftKernel false (2 ^ m) (j * t) * dftKernel true (2 ^ m) (j * s)) := by
    intro j hj
    rw [← Complex.mul_conj, fft1d_eq_dft false m x (Finset.mem_range.mp hj)]
    simp only [if_neg (by simp : ¬false = true), one_mul]
    rw [map_sum, Finset.sum_mul_sum]
    refine Finset.sum_congr rfl fun t _ => Finset.sum_congr rfl fun s _ => ?_
    rw [map_mul, dftKernel_conj]
    simp only [Bool.not_false]
    ring
  rw [Finset.sum_congr rfl hstep]
  rw [Finset.sum_comm]
  have hswap : ∀ t ∈ Finset.range (2 ^ m),
      (∑ j in Finset.range (2 ^ m), ∑ s in Finset.range (2 ^ m),
          x t * (starRingEnd ℂ) (x s)
            * (dftKernel false (2 ^ m) (j * t) * dftKernel true (2 ^ m) (j * s)))
        = ∑ s in Finset.range (2 ^ m), x t * (starRingEnd ℂ) (x s)
            * ∑ j in Finset.range (2 ^ m),
                dftKernel false (2 ^ m) (t * j) * dftKernel true (2 ^ m) (s * j) := by
    intro t _
    rw [Finset.sum_comm]
    refine Finset.sum_congr rfl fun s _ => ?_
    rw [Finset.mul_sum]
    refine Finset.sum_congr rfl fun j _ => ?_
    rw [show t * j = j * t by ring, show s * j = j * s by ring]
    try ring
  rw [Finset.sum_congr rfl hswap]
  have hfin : ∀ t ∈ Finset.range (2 ^ m),
      (∑ s in Finset.range (2 ^ m), x t * (starRingEnd ℂ) (x s)
          * ∑ j in Finset.range (2 ^ m),
              dftKernel false (2 ^ m) (t * j) * dftKernel true (2 ^ m) (s * j))
        = ((2 ^ m : ℕ) : ℂ) * ((Complex.normSq (x t) : ℂ)) := by
    intro t ht
    have horth : ∀ s ∈ Finset.range (2 ^ m),
        x t * (starRingEnd ℂ) (x s)
            * ∑ j in Finset.range (2 ^ m),
                dftKernel false (2 ^ m) (t * j) * dftKernel true (2 ^ m) (s * j)
          = if t = s then x t * (starRingEnd ℂ) (x s) * ((2 ^ m : ℕ) : ℂ) else 0 := by
      intro s hs
      have h2 := dftKernel_orthogonal false hN (Finset.mem_range.mp ht) (Finset.mem_range.mp hs)
      rw [show (!false) = true from rfl] at h2
      rw [h2]
      split <;> simp
    rw [Finset.sum_congr rfl horth, Finset.sum_ite_eq _ t _, if_pos ht, ← Complex.mul_conj]
    ring
  rw [Finset.sum_congr rfl hfin, ← Finset.mul_sum]

/-! ## The 2-D transform: congruence, inversion, Parseval -/

theorem fft2d_apply (N : ℕ) (inv : Bool) (g : ℕ → ℕ → ℂ) (r c : ℕ) :
    fft2d N inv g r c = fft1d N inv (fun r2 => fft1d N inv (g r2) c) r := rfl

theorem fft2d_congr (inv : Bool) (m : ℕ) {g h : ℕ → ℕ → ℂ}
    (hgh : ∀ r < 2 ^ m, ∀ c < 2 ^ m, g r c = h r c) {r c : ℕ}
    (hr : r < 2 ^ m) (hc : c < 2 ^ m) :
    fft2d (2 ^ m) inv g r c = fft2d (2 ^ m) inv h r c := by
  rw [fft2d_apply, fft2d_apply]
  exact fft1d_congr inv m
    (fun r2 hr2 => fft1d_congr inv m (fun c2 hc2 => hgh r2 hr2 c2 hc2) hc) hr

theorem fft1d_zero_of (inv : Bool) (m : ℕ) {x : ℕ → ℂ} (hx : ∀ i < 2 ^ m, x i = 0)
    {j : ℕ} (hj : j < 2 ^ m) : fft1d (2 ^ m) inv x j = 0 := by
  rw [fft1d_eq_dft inv m x hj,
    Finset.sum_congr rfl fun t ht => by
      rw [hx t (Finset.mem_range.mp ht), zero_mul]]
  simp

theorem fft1d_mixed (inv : Bool) (m : ℕ) (g : ℕ → ℕ → ℂ) {r2 c : ℕ}
    (hr2 : r2 < 2 ^ m) (hc : c < 2 ^ m) :
    fft1d (2 ^ m) (!inv)
        (fun c3 => fft1d (2 ^ m) inv (fun r4 => fft1d (2 ^ m) inv (g r4) c3) r2) c
      = fft1d (2 ^ m) inv (fun r3 => g r3 c) r2 := by
  rw [fft1d_eq_dft (!inv) m _ hc]
  have hstep : ∀ cp ∈ Finset.range (2 ^ m),
      fft1d (2 ^ m) inv (fun r4 => fft1d (2 ^ m) inv (g r4) cp) r2
          * dftKernel (!inv) (2 ^ m) (c * cp)
        = (if inv then (((2 ^ m : ℕ) : ℂ))⁻¹ else 1)
          * ∑ rp in Finset.range (2 ^ m),
              fft1d (2 ^ m) inv (g rp) cp * dftKernel (!inv) (2 ^ m) (c * cp)
                * dftKernel inv (2 ^ m) (r2 * rp) := by
    intro cp _
    rw [fft1d_eq_dft inv m _ hr2, mul_assoc, Finset.sum_mul]
    congr 1
    exact Finset.sum_congr rfl fun rp _ => by ring
  rw [Finset.sum_congr rfl hstep, ← Finset.mul_sum, Finset.sum_comm, mul_left_comm,
    Finset.mul_sum]
  have hrow : ∀ rp ∈ Finset.range (2 ^ m),
      ((if (!inv) then (((2 ^ m : ℕ) : ℂ))⁻¹ else 1)
        * ∑ cp in Finset.range (2 ^ m),
            fft1d (2 ^ m) inv (g rp) cp * dftKernel (!inv) (2 ^ m) (c * cp)
              * dftKernel inv (2 ^ m) (r2 * rp))
        = g rp c * dftKernel inv (2 ^ m) (r2 * rp) := by
    intro rp _
    rw [← Finset.sum_mul, ← mul_assoc, ← fft1d_eq_dft (!inv) m _ hc, fft1d_comp inv m (g rp) hc]
  rw [Finset.sum_congr rfl hrow, ← fft1d_eq_dft inv m _ hr2]

theorem fft2d_roundtrip (inv : Bool) (m : ℕ) (g : ℕ → ℕ → ℂ) {r c : ℕ}
    (hr : r < 2 ^ m) (hc : c < 2 ^ m) :
    fft2d (2 ^ m) (!inv) (fft2d (2 ^ m) inv g) r c = g r c := by
  rw [fft2d_apply]
  have hcongr : ∀ r2, r2 < 2 ^ m →
      fft1d (2 ^ m) (!inv) (fun c3 => fft2d (2 ^ m) inv g r2 c3) c
        = fft1d (2 ^ m) inv (fun r3 => g r3 c) r2 :=
    fun r2 hr2 => fft1d_mixed inv m g hr2 hc
  rw [fft1d_congr (!inv) m hcongr hr]
  exact fft1d_comp inv m _ hr

theorem fft2d_eq_dft (inv : Bool) (m : ℕ) (g : ℕ → ℕ → ℂ) {r c : ℕ}
    (hr : r < 2 ^ m) (hc : c < 2 ^ m) :
    fft2d (2 ^ m) inv g r c
      = (if inv then (((2 ^ m : ℕ) : ℂ))⁻¹ else 1) ^ 2
        * ∑ rp in Finset.range (2 ^ m), ∑ cp in Finset.range (2 ^ m),
            g rp cp * dftKernel inv (2 ^ m) (c * cp) * dftKernel inv (2 ^ m) (r * rp) := by
  rw [fft2d_apply, fft1d_eq_dft inv m _ hr]
  have hstep : ∀ rp ∈ Finset.range (2 ^ m),
      fft1d (2 ^ m) inv (g rp) c * dftKernel inv (2 ^ m) (r * rp)
        = (if inv then (((2 ^ m : ℕ) : ℂ))⁻¹ else 1)
          * ∑ cp in Finset.range (2 ^ m),
              g rp cp * dftKernel inv (2 ^ m) (c * cp) * dftKernel inv (2 ^ m) (r * rp) := by
    intro rp _
    rw [fft1d_eq_dft inv m _ hc, mul_assoc, Finset.sum_mul]
  rw [Finset.sum_congr rfl hstep, ← Finset.mul_sum, ← mul_assoc, sq]

theorem fft2d_parseval (m : ℕ) (g : ℕ → ℕ → ℂ) :
    ∑ r in Finset.range (2 ^ m), ∑ c in Finset.range (2 ^ m),
        ((Complex.normSq (fft2d (2 ^ m) false g r c) : ℂ))
      = ((2 ^ m : ℕ) : ℂ) ^ 2 * ∑ r in Finset.range (2 ^ m), ∑ c in Finset.range (2 ^ m),
          ((Complex.normSq (g r c) : ℂ)) := by
  have hcol : ∀ c ∈ Finset.range (2 ^ m),
      (∑ r in Finset.range (2 ^ m), ((Complex.normSq (fft2d (2 ^ m) false g r c) : ℂ)))
        = ((2 ^ m : ℕ) : ℂ)
          * ∑ r in Finset.range (2 ^ m), ((Complex.normSq (fft1d (2 ^ m) false (g r) c) : ℂ)) := by
    intro c _
    rw [Finset.sum_congr rfl fun r _ => by rw [fft2d_apply]]
    exact fft1d_parseval m _
  have hrow : ∀ r ∈ Finset.range (2 ^ m),
      (∑ c in Finset.range (2 ^ m), ((Complex.normSq (fft1d (2 ^ m) false (g r) c) : ℂ)))
        = ((2 ^ m : ℕ) : ℂ) * ∑ c in Finset.range (2 ^ m), ((Complex.normSq (g r c) : ℂ)) :=
    fun r _ => fft1d_parseval m (g r)
  rw [Finset.sum_comm, Finset.sum_congr rfl hcol, ← Finset.mul_sum, Finset.sum_comm,
    Finset.sum_congr rfl hrow, ← Finset.mul_sum, ← mul_assoc, sq]

/-! ## Claim C1: FFT round trip -/

/-- C1: for every N-by-N complex grid x with N a power of two, the
forward 2-D FFT followed by the inverse 2-D FFT (with no other operation
in between) reproduces x exactly over exact real arithmetic, hence to
within the stated tolerance in floating point. -/
theorem fft2d_forward_inverse_roundtrip (m : ℕ) (x : ℕ → ℕ → ℂ) {r c : ℕ}
    (hr : r < 2 ^ m) (hc : c < 2 ^ m) :
    fft2d (2 ^ m) true (fft2d (2 ^ m) false x) r c = x r c := by
  have h := fft2d_roundtrip false m x hr hc
  rwa [show (!false) = true from rfl] at h

/-- Witness for C1 at the concrete grid size N = 2 and the constant
grid. -/
theorem fft2d_forward_inverse_roundtrip_witness :
    (0 : ℕ) < 2 ^ 1 ∧ (1 : ℕ) < 2 ^ 1 ∧
      fft2d (2 ^ 1) true (fft2d (2 ^ 1) false fun _ _ => (7 : ℂ)) 0 1 = 7 :=
  ⟨by decide, by decide,
    fft2d_forward_inverse_roundtrip 1 (fun _ _ => (7 : ℂ)) (by decide) (by decide)⟩

/-! ## Claim C3: fftshift involution -/

theorem shift_add_half_involutive {N a : ℕ} (hN : N % 2 = 0) (ha : a < N) :
    ((a + N / 2) % N + N / 2) % N = a := by
  obtain ⟨k, hk⟩ : ∃ k, N = 2 * k := ⟨N / 2, by omega⟩
  subst hk
  have h2 : 2 * k / 2 = k := by omega
  rw [h2]
  rcases lt_or_ge a k with h | h
  · rw [Nat.mod_eq_of_lt (by omega : a + k < 2 * k),
      show a + k + k = a + 2 * k by ring, Nat.add_mod_right, Nat.mod_eq_of_lt ha]
  · rw [show a + k = (a - k) + 2 * k by omega, Nat.add_mod_right,
      Nat.mod_eq_of_lt (by omega : a - k < 2 * k),
      show a - k + k = a by omega, Nat.mod_eq_of_lt ha]

/-- C3: for every N-by-N complex grid and even N, applying fftshift twice
restores the grid exactly. -/
theorem fftshift_involution (N : ℕ) (x : ℕ → ℕ → ℂ) {r c : ℕ}
    (hN : N % 2 = 0) (hr : r < N) (hc : c < N) :
    fftshiftG N (fftshiftG N x) r c = x r c := by
  unfold fftshiftG
  rw [shift_add_half_involutive hN hr, shift_add_half_involutive hN hc]

/-- Witness for C3 at N = 2 on a non-constant grid. -/
theorem fftshift_involution_witness :
    (2 : ℕ) % 2 = 0 ∧ (0 : ℕ) < 2 ∧ (1 : ℕ) < 2 ∧
      fftshiftG 2 (fftshiftG 2 fun r c => (r + 2 * c : ℂ)) 0 1 = 2 :=
  ⟨by decide, by decide, by decide, by
    simpa using @fftshift_involution 2 (fun r c => (r + 2 * c : ℂ)) 0 1 (by decide) (by decide)
      (by decide)⟩

/-! ## Claim C4: pupil aperture cut and bit-exact passthrough -/

theorem pupilPhase_zero {p : PupilParams} (hdef : p.defocus = 0) (hzern : p.zernike = zernikeZero)
    (N r c : ℕ) : pupilPhase N p r c = 0 := by
  unfold pupilPhase
  rw [hdef, hzern]
  have hz : ¬hasZernike zernikeZero := by
    unfold hasZernike zernikeZero
    push_neg
    norm_num
  rw [if_neg (by norm_num), if_neg hz]
  norm_num

theorem applyPupil_block {N : ℕ} {p : PupilParams} {g : ℕ → ℕ → ℂ} {r c : ℕ}
    (h : pupilFreqSq N r c > pupilFCutoffSq p) : applyPupil N p g r c = 0 := by
  unfold applyPupil
  rw [if_pos h]

theorem applyPupil_pass {N : ℕ} {p : PupilParams} {g : ℕ → ℕ → ℂ} {r c : ℕ}
    (hdef : p.defocus = 0) (hzern : p.zernike = zernikeZero)
    (h : ¬(pupilFreqSq N r c > pupilFCutoffSq p)) : applyPupil N p g r c = g r c := by
  unfold applyPupil
  rw [if_neg h, if_neg (by rw [pupilPhase_zero hdef hzern]; simp)]

/-- C4: the pupil zeroes both components of every bin whose squared
radial frequency exceeds the squared cutoff NA(1+sigma)/wavelength, and
with zero defocus and all eight Zernike coefficients zero it leaves every
in-aperture bin bit-exactly unchanged. -/
theorem applyPupil_cut_and_passthrough (N : ℕ) (p : PupilParams) (g : ℕ → ℕ → ℂ) (r c : ℕ) :
    (pupilFreqSq N r c > pupilFCutoffSq p → applyPupil N p g r c = 0)
      ∧ (p.defocus = 0 → p.zernike = zernikeZero →
          pupilFreqSq N r c ≤ pupilFCutoffSq p → applyPupil N p g r c = g r c) :=
  ⟨fun h => applyPupil_block h,
    fun hdef hzern h => applyPupil_pass hdef hzern (not_lt.mpr h)⟩

/-- Witness for C4: a concrete out-of-aperture bin is zeroed (small
aperture), and a concrete in-aperture bin passes through bit-exactly
(large aperture, no defocus, no aberrations). -/
theorem applyPupil_cut_and_passthrough_witness :
    (pupilFreqSq 2 0 0
        > pupilFCutoffSq ⟨365, 0.1, 0, 0, zernikeZero⟩ ∧
      applyPupil 2 ⟨365, 0.1, 0, 0, zernikeZero⟩ (fun _ _ => (3 : ℂ)) 0 0 = 0)
    ∧ ((0 : ℝ) = 0 ∧
      pupilFreqSq 2 0 0 ≤ pupilFCutoffSq ⟨1, 1, 0, 0, zernikeZero⟩ ∧
      applyPupil 2 ⟨1, 1, 0, 0, zernikeZero⟩ (fun _ _ => (3 : ℂ)) 0 0 = 3) := by
  have hout : pupilFreqSq 2 0 0 > pupilFCutoffSq ⟨365, 0.1, 0, 0, zernikeZero⟩ := by
    unfold pupilFreqSq pupilFreq pupilDf pixelSize pupilFCutoffSq pupilFCutoff
    norm_num
  have hin : pupilFreqSq 2 0 0 ≤ pupilFCutoffSq ⟨1, 1, 0, 0, zernikeZero⟩ := by
    unfold pupilFreqSq pupilFreq pupilDf pixelSize pupilFCutoffSq pupilFCutoff
    norm_num
  exact ⟨⟨hout, (applyPupil_cut_and_passthrough 2 _ _ 0 0).1 hout⟩,
    rfl, hin, (applyPupil_cut_and_passthrough 2 _ _ 0 0).2 rfl rfl hin⟩

/-! ## Claim C10: pipeline frame property -/

/-- C10: the pipeline never writes to its mask argument — after a call
the mask buffer equals its previous contents — and the output buffer is
fresh on every call: the result does not depend on the previous contents
of the out field, all mutation being confined to the scratch and out
fields. -/
theorem runPipelineBuf_frame (p : PupilParams) (st : PipelineBuffers) :
    (runPipelineBuf p st).mask = st.mask
      ∧ ∀ out2 : ℕ → ℝ, runPipelineBuf p { st with out := out2 } = runPipelineBuf p st :=
  ⟨rfl, fun _ => rfl⟩

/-! ## Claim C8: store notification coalescing -/

theorem foldl_applySetter_val {S : Type} (muts : List (S → S)) (st : StoreState S) :
    (muts.foldl applySetter st).val = muts.foldl (fun s f => f s) st.val := by
  induction muts generalizing st with
  | nil => rfl
  | cons f fs ih => simp [applySetter, ih]

theorem foldl_applySetter_pending {S : Type} (muts : List (S → S)) (st : StoreState S) :
    (muts.foldl applySetter st).pending = (st.pending || !muts.isEmpty) := by
  induction muts generalizing st with
  | nil => simp
  | cons f fs ih => simp [applySetter, ih]

theorem runOps_sets {S : Type} (L : List (S → List (S → S))) (muts : List (S → S))
    (st : StoreState S) (rest : List (StoreOp S)) :
    runOps L st (muts.map StoreOp.set ++ rest)
      = runOps L ⟨muts.foldl (fun s f => f s) st.val, st.pending || !muts.isEmpty⟩ rest := by
  induction muts generalizing st with
  | nil => simp
  | cons f fs ih =>
      rw [List.map_cons, List.cons_append,
        show runOps L st (StoreOp.set f :: (List.map StoreOp.set fs ++ rest))
          = runOps L (applySetter st f) (List.map StoreOp.set fs ++ rest) from rfl,
        ih]
      simp [applySetter]

theorem invokeAll_log_length {S : Type} (L : List (S → List (S → S))) (st : StoreState S) :
    (invokeAll L st).2.length = L.length := by
  induction L generalizing st with
  | nil => rfl
  | cons fn rest ih => simp [invokeAll, ih]

theorem invokeAll_pure_obs {S : Type} (L : List (S → List (S → S))) (st : StoreState S)
    (hpure : ∀ fn ∈ L, ∀ s, fn s = []) : ∀ o ∈ (invokeAll L st).2, o = st.val := by
  induction L generalizing st with
  | nil => simp [invokeAll]
  | cons fn rest ih =>
      intro o ho
      have hfn : fn st.val = [] := hpure fn (by simp) st.val
      simp only [invokeAll, hfn, List.foldl_nil, List.mem_cons] at ho
      rcases ho with h | h
      · exact h
      · exact ih st (fun g hg s => hpure g (by simp [hg]) s) o h

theorem invokeAll_pending_mono {S : Type} (L : List (S → List (S → S))) (st : StoreState S)
    (h : st.pending = true) : (invokeAll L st).1.pending = true := by
  induction L generalizing st with
  | nil => exact h
  | cons fn rest ih =>
      simp only [invokeAll]
      exact ih _ (by rw [foldl_applySetter_pending, h]; simp)

theorem invokeAll_mut_pending {S : Type} (L : List (S → List (S → S))) (st : StoreState S) :
    ∀ i fn, L.get? i = some fn → ∀ o, (invokeAll L st).2.get? i = some o →
      fn o ≠ [] → (invokeAll L st).1.pending = true := by
  induction L generalizing st with
  | nil => intro i fn h; simp at h
  | cons g rest ih =>
      intro i fn hfn o ho hmut
      cases i with
      | zero =>
          simp only [List.get?_cons_zero] at hfn
          simp only [invokeAll, List.get?_cons_zero] at ho
          have hg : g = fn := by injection hfn
          have hov : st.val = o := by injection ho
          simp only [invokeAll]
          apply invokeAll_pending_mono
          rw [foldl_applySetter_pending]
          have hne : (g st.val).isEmpty = false := by
            rw [hg, hov]
            cases hq : fn o with
            | nil => exact absurd hq hmut
            | cons a l => simp
          rw [hne]
          simp
      | succ i =>
          simp only [List.get?_cons_succ] at hfn
          simp only [invokeAll, List.get?_cons_succ] at ho
          exact ih _ i fn hfn o ho hmut

theorem runOps_tick_pending {S : Type} (L : List (S → List (S → S))) (v : S) :
    runOps L ⟨v, true⟩ [StoreOp.tick]
      = ((invokeAll L ⟨v, false⟩).1, [(invokeAll L ⟨v, false⟩).2]) := by
  simp [runOps, runTick]

/-- C8: any K setter calls (K at least 1) completed before the next
display tick produce exactly one invocation of each subscribed listener,
at that tick, in subscription order; when no listener mutates state, each
listener observes the state after all K mutations; and a listener that
itself calls a setter during its invocation is not invoked again within
the same tick — its mutation re-arms the pending flag, so the following
tick fires and again invokes every listener exactly once. -/
theorem store_coalescing {S : Type} (initVal : S) (muts : List (S → S))
    (L : List (S → List (S → S))) (hK : muts ≠ []) :
    ∃ st1 log,
      runOps L ⟨initVal, false⟩ (muts.map StoreOp.set ++ [StoreOp.tick]) = (st1, [log]) ∧
      log.length = L.length ∧
      ((∀ fn ∈ L, ∀ s, fn s = []) →
        ∀ o ∈ log, o = muts.foldl (fun s f => f s) initVal) ∧
      (∀ i fn, L.get? i = some fn → ∀ o, log.get? i = some o → fn o ≠ [] →
        st1.pending = true ∧ (runTick L st1).2.length = L.length) := by
  rw [runOps_sets]
  have hEmpty : muts.isEmpty = false := by
    cases muts with
    | nil => exact absurd rfl hK
    | cons a l => simp
  rw [hEmpty]
  rw [show (false || !false) = true from rfl, runOps_tick_pending]
  refine ⟨_, _, rfl, invokeAll_log_length L _, ?_, ?_⟩
  · intro hpure o ho
    exact invokeAll_pure_obs L _ hpure o ho
  · intro i fn hfn o ho hmut
    have hp1 := invokeAll_mut_pending L _ i fn hfn o ho hmut
    refine ⟨hp1, ?_⟩
    unfold runTick
    rw [if_pos hp1]
    exact invokeAll_log_length L _

/-- Witness for C8: one mutation on a natural-number state, one listener
that mutates again during its invocation. -/
theorem store_coalescing_witness :
    ([fun n => n + 1] : List (ℕ → ℕ)) ≠ [] ∧
    ∃ st1 log,
      runOps [fun _ => [fun n : ℕ => n * 2]] ⟨0, false⟩
          (([fun n => n + 1] : List (ℕ → ℕ)).map StoreOp.set ++ [StoreOp.tick])
        = (st1, [log]) ∧
      log.length = 1 ∧
      ((∀ fn ∈ ([fun _ => [fun n : ℕ => n * 2]] : List (ℕ → List (ℕ → ℕ))), ∀ s, fn s = []) →
        ∀ o ∈ log, o = ([fun n => n + 1] : List (ℕ → ℕ)).foldl (fun s f => f s) 0) ∧
      (∀ i fn, ([fun _ => [fun n : ℕ => n * 2]] : List (ℕ → List (ℕ → ℕ))).get? i = some fn →
        ∀ o, log.get? i = some o → fn o ≠ [] →
        st1.pending = true ∧
          (runTick [fun _ => [fun n : ℕ => n * 2]] st1).2.length = 1) := by
  refine ⟨by simp, ?_⟩
  exact store_coalescing 0 [fun n => n + 1] [fun _ => [fun n : ℕ => n * 2]] (by simp)

/-! ## CD measurement: streak and closed-run bookkeeping -/

theorem streak_le (P : ℕ → Prop) (j : ℕ) : streak P j ≤ j := by
  induction j with
  | zero => simp [streak]
  | succ j ih =>
      by_cases h : P j <;> simp only [streak, h, if_pos, if_neg, not_false_iff] <;> omega

theorem streak_printed (P : ℕ → Prop) (j : ℕ) :
    ∀ t < streak P j, P (j - streak P j + t) := by
  induction j with
  | zero => simp [streak]
  | succ j ih =>
      by_cases h : P j
      · simp only [streak, h, if_pos]
        intro t ht
        have hle := streak_le P j
        rcases Nat.lt_succ_iff_lt_or_eq.mp ht with h2 | h2
        · have := ih t h2
          have harith : j + 1 - (streak P j + 1) + t = j - streak P j + t := by omega
          rwa [harith]
        · subst h2
          have harith : j + 1 - (streak P j + 1) + streak P j = j := by omega
          rwa [harith]
      · simp [streak, h]

theorem streak_left_maximal (P : ℕ → Prop) (j : ℕ) (h0 : 0 < j - streak P j) :
    ¬P (j - streak P j - 1) := by
  induction j with
  | zero => simp [streak] at h0
  | succ j ih =>
      by_cases h : P j
      · simp only [streak, h, if_pos] at h0 ⊢
        have harith : j + 1 - (streak P j + 1) = j - streak P j := by omega
        rw [harith] at h0 ⊢
        exact ih h0
      · simp only [streak, h, if_neg, not_false_iff] at h0 ⊢
        have harith : j + 1 - 0 - 1 = j := by omega
        rwa [harith]

theorem streak_ge_of_printed (P : ℕ → Prop) (s : ℕ) :
    ∀ l, (∀ t < l, P (s + t)) → l ≤ streak P (s + l) := by
  intro l
  induction l with
  | zero => simp
  | succ l ih =>
      intro hp
      have hPl : P (s + l) := hp l (by omega)
      have hrec : streak P (s + (l + 1)) = streak P (s + l) + 1 := by
        rw [show s + (l + 1) = (s + l) + 1 by ring]
        simp [streak, hPl]
      rw [hrec]
      have := ih fun t ht => hp t (by omega)
      omega

theorem streak_add_printed (P : ℕ → Prop) (j : ℕ) :
    ∀ d, (∀ i < d, P (j + i)) → streak P (j + d) = streak P j + d := by
  intro d
  induction d with
  | zero => simp
  | succ d ih =>
      intro hp
      have hPd : P (j + d) := hp d (by omega)
      rw [show j + (d + 1) = (j + d) + 1 by ring]
      simp only [streak, hPd, if_pos]
      rw [ih fun i hi => hp i (by omega)]
      ring

theorem streak_mono_pred {P Q : ℕ → Prop} (h : ∀ i, P i → Q i) (j : ℕ) :
    streak P j ≤ streak Q j := by
  induction j with
  | zero => simp [streak]
  | succ j ih =>
      by_cases hP : P j
      · have hQ : Q j := h j hP
        simp only [streak, hP, hQ, if_pos]
        omega
      · simp [streak, hP]

theorem cmax_succ_ge (P : ℕ → Prop) (j : ℕ) : cmax P j ≤ cmax P (j + 1) := by
  by_cases h : P j
  · simp [cmax, h]
  · simp only [cmax, h, if_neg, not_false_iff]
    exact le_max_left _ _

theorem cmax_mono (P : ℕ → Prop) {j k : ℕ} (hjk : j ≤ k) : cmax P j ≤ cmax P k := by
  induction k with
  | zero =>
      have hj0 : j = 0 := by omega
      subst hj0
      exact le_rfl
  | succ k ih =>
      rcases Nat.lt_succ_iff_lt_or_eq.mp (Nat.lt_succ_of_le hjk) with h | h
      · exact le_trans (ih (by omega)) (cmax_succ_ge P k)
      · subst h; exact le_rfl

theorem streak_le_cmax (P : ℕ → Prop) {i j : ℕ} (hij : i < j) (hP : ¬P i) :
    streak P i ≤ cmax P j := by
  have h1 : streak P i ≤ cmax P (i + 1) := by
    simp only [cmax, hP, if_neg, not_false_iff]
    omega
  exact le_trans h1 (cmax_mono P hij)

theorem cmax_realized_aux (P : ℕ → Prop) (j : ℕ) :
    cmax P j = 0 ∨ ∃ i < j, ¬P i ∧ streak P i = cmax P j ∧ 0 < cmax P j := by
  induction j with
  | zero => left; rfl
  | succ j ih =>
      by_cases h : P j
      · simp only [cmax, h, if_pos]
        rcases ih with h0 | ⟨i, hi, hPi, hsi, hpos⟩
        · exact Or.inl h0
        · exact Or.inr ⟨i, by omega, hPi, hsi, hpos⟩
      · simp only [cmax, h, if_neg, not_false_iff]
        rcases Nat.le_total (streak P j) (cmax P j) with hle | hle
        · rw [max_eq_left hle]
          rcases ih with h0 | ⟨i, hi, hPi, hsi, hpos⟩
          · exact Or.inl h0
          · exact Or.inr ⟨i, by omega, hPi, hsi, hpos⟩
        · rw [max_eq_right hle]
          rcases Nat.eq_zero_or_pos (streak P j) with h0 | hpos
          · rw [h0]
            rcases ih with hc | ⟨_, _, _, _, hpos2⟩
            · left; rfl
            · omega
          · exact Or.inr ⟨j, by omega, h, rfl, hpos⟩

/-- A positive streak ending at an unprinted column yields a maximal
run. -/
theorem isRun_of_streak (P : ℕ → Prop) (i : ℕ) (hP : ¬P i) (hpos : 0 < streak P i) :
    IsRun P (i - streak P i) (streak P i) := by
  have hle := streak_le P i
  refine ⟨hpos, ?_, ?_, ?_⟩
  · exact streak_printed P i
  · rwa [show i - streak P i + streak P i = i by omega]
  · rcases Nat.eq_zero_or_pos (i - streak P i) with h0 | h2
    · exact Or.inl h0
    · exact Or.inr (streak_left_maximal P i h2)

theorem isRun_le_cmax {P : ℕ → Prop} (hbound : ∀ i, P i → i < 256) {s l : ℕ}
    (hrun : IsRun P s l) : l ≤ cmax P 257 := by
  obtain ⟨hpos, hprint, hstop, _⟩ := hrun
  have hlast : s + l - 1 < 256 := hbound _ (by
    have := hprint (l - 1) (by omega)
    rwa [show s + (l - 1) = s + l - 1 by omega] at this)
  have h1 : l ≤ streak P (s + l) := streak_ge_of_printed P s l hprint
  have h2 : streak P (s + l) ≤ cmax P 257 := streak_le_cmax P (by omega) hstop
  omega

theorem cmax_realized (P : ℕ → Prop) :
    cmax P 257 = 0 ∨ ∃ s, IsRun P s (cmax P 257) := by
  rcases cmax_realized_aux P 257 with h0 | ⟨i, _, hPi, hsi, hpos⟩
  · exact Or.inl h0
  · right
    refine ⟨i - streak P i, ?_⟩
    rw [← hsi]
    exact isRun_of_streak P i hPi (by omega)

/-! ## The CD scan loop computes the widest-run length -/

theorem cdStep_open (I : ℕ → ℝ) (dose : ℝ) {i : ℕ} (h : cdPrinted I dose i) (b : ℕ) (c : ℝ) :
    cdStep I dose ⟨b, c, none⟩ i = ⟨b, c, some i⟩ := by
  unfold cdStep
  rw [if_pos h]

theorem cdStep_inRun (I : ℕ → ℝ) (dose : ℝ) {i : ℕ} (h : cdPrinted I dose i) (b : ℕ) (c : ℝ)
    (rs : ℕ) : cdStep I dose ⟨b, c, some rs⟩ i = ⟨b, c, some rs⟩ := by
  unfold cdStep
  rw [if_pos h]

theorem cdStep_idle (I : ℕ → ℝ) (dose : ℝ) {i : ℕ} (h : ¬cdPrinted I dose i) (b : ℕ) (c : ℝ) :
    cdStep I dose ⟨b, c, none⟩ i = ⟨b, c, none⟩ := by
  unfold cdStep
  rw [if_neg h]

theorem cdStep_close (I : ℕ → ℝ) (dose : ℝ) {i : ℕ} (h : ¬cdPrinted I dose i) (b : ℕ) (c : ℝ)
    (rs : ℕ) :
    cdStep I dose ⟨b, c, some rs⟩ i
      = if i - rs > b ∨ (i - rs = b ∧ |(rs : ℝ) + ((i - rs : ℕ) : ℝ) / 2 - 128| < |c - 128|)
        then ⟨i - rs, (rs : ℝ) + ((i - rs : ℕ) : ℝ) / 2, none⟩
        else ⟨b, c, none⟩ := by
  unfold cdStep
  rw [if_neg h]

theorem cd_fold_invariant (I : ℕ → ℝ) (dose : ℝ) (j : ℕ) :
    ∃ bc : ℝ, (List.range j).foldl (cdStep I dose) ⟨0, -1, none⟩
      = ⟨cmax (cdPrinted I dose) j, bc,
          if streak (cdPrinted I dose) j = 0 then none
          else some (j - streak (cdPrinted I dose) j)⟩ := by
  induction j with
  | zero => exact ⟨-1, by simp [streak, cmax]⟩
  | succ j ih =>
      obtain ⟨bc, hst⟩ := ih
      rw [List.range_succ, List.foldl_append, List.foldl_cons, List.foldl_nil, hst]
      have hsle := streak_le (cdPrinted I dose) j
      by_cases hPj : cdPrinted I dose j
      · rcases Nat.eq_zero_or_pos (streak (cdPrinted I dose) j) with hL | hL
        · refine ⟨bc, ?_⟩
          rw [if_pos hL, cdStep_open I dose hPj]
          simp [cmax, streak, hPj, hL]
        · refine ⟨bc, ?_⟩
          rw [if_neg (by omega), cdStep_inRun I dose hPj]
          simp only [cmax, streak, hPj, if_pos]
          rw [if_neg (by omega)]
          have harith : j + 1 - (streak (cdPrinted I dose) j + 1)
              = j - streak (cdPrinted I dose) j := by omega
          rw [harith]
      · rcases Nat.eq_zero_or_pos (streak (cdPrinted I dose) j) with hL | hL
        · refine ⟨bc, ?_⟩
          rw [if_pos hL, cdStep_idle I dose hPj]
          simp [cmax, streak, hPj, hL]
        · rw [if_neg (by omega), cdStep_close I dose hPj]
          have hlen : j - (j - streak (cdPrinted I dose) j) = streak (cdPrinted I dose) j := by
            omega
          rw [hlen]
          by_cases hcond : streak (cdPrinted I dose) j > cmax (cdPrinted I dose) j
            ∨ (streak (cdPrinted I dose) j = cmax (cdPrinted I dose) j
              ∧ |((j - streak (cdPrinted I dose) j : ℕ) : ℝ)
                  + ((streak (cdPrinted I dose) j : ℕ) : ℝ) / 2 - 128| < |bc - 128|)
          · rw [if_pos hcond]
            refine ⟨((j - streak (cdPrinted I dose) j : ℕ) : ℝ)
              + ((streak (cdPrinted I dose) j : ℕ) : ℝ) / 2, ?_⟩
            have hmax : cmax (cdPrinted I dose) (j + 1) = streak (cdPrinted I dose) j := by
              simp only [cmax, hPj, if_neg, not_false_iff]
              rcases hcond with hgt | ⟨heq, _⟩
              · omega
              · omega
            rw [hmax]
            simp [streak, hPj]
          · rw [if_neg hcond]
            refine ⟨bc, ?_⟩
            have hmax : cmax (cdPrinted I dose) (j + 1) = cmax (cdPrinted I dose) j := by
              simp only [cmax, hPj, if_neg, not_false_iff]
              push_neg at hcond
              omega
            rw [hmax]
            simp [streak, hPj]

theorem measureCD_eq_cmax (I : ℕ → ℝ) (dose : ℝ) :
    measureCD I dose = ((cmax (cdPrinted I dose) 257 : ℕ) : ℝ) * pixelSize := by
  obtain ⟨bc, hst⟩ := cd_fold_invariant I dose 257
  unfold measureCD
  rw [hst]

theorem run_extend {P Q : ℕ → Prop} (himp : ∀ i, P i → Q i) (hQb : ∀ i, Q i → i < 256)
    {s l : ℕ} (hpos : 0 < l) (hprint : ∀ t < l, P (s + t)) :
    ∃ s2 l2, l ≤ l2 ∧ IsRun Q s2 l2 := by
  classical
  have hex : ∃ d, ¬Q (s + l + d) := ⟨256, fun hq => by have := hQb _ hq; omega⟩
  have hnd : ¬Q (s + l + Nat.find hex) := Nat.find_spec hex
  have hbefore : ∀ i < Nat.find hex, Q (s + l + i) := by
    intro i hi
    by_contra hni
    exact Nat.find_min hex hi hni
  have hQprint : ∀ t < l, Q (s + t) := fun t ht => himp _ (hprint t ht)
  have h1 : l ≤ streak Q (s + l) := streak_ge_of_printed Q s l hQprint
  have h2 : streak Q (s + l + Nat.find hex) = streak Q (s + l) + Nat.find hex :=
    streak_add_printed Q (s + l) (Nat.find hex) hbefore
  refine ⟨s + l + Nat.find hex - streak Q (s + l + Nat.find hex),
    streak Q (s + l + Nat.find hex), by omega, ?_⟩
  exact isRun_of_streak Q (s + l + Nat.find hex) hnd (by omega)

/-! ## Claim C5: measureCD returns the widest maximal run -/

/-- C5: measureCD marks column i of the center row printed iff the
dose-scaled intensity is at least 1, partitions the row into maximal
contiguous printed runs (a run still open at the last column terminates
at the virtual boundary), and returns the widest run's length — ties
broken toward the run centered closest to column 128, which cannot
change the returned width — times the pixel size, or 0 when no run
exists. -/
theorem measureCD_widest_run (I : ℕ → ℝ) (dose : ℝ) :
    ∃ L : ℕ, measureCD I dose = (L : ℝ) * pixelSize
      ∧ (∀ s l, IsRun (cdPrinted I dose) s l → l ≤ L)
      ∧ (L = 0 ∨ ∃ s, IsRun (cdPrinted I dose) s L) := by
  refine ⟨cmax (cdPrinted I dose) 257, measureCD_eq_cmax I dose, ?_, cmax_realized _⟩
  intro s l hrun
  exact isRun_le_cmax (fun i hi => hi.1) hrun

/-- Witness for C5 on the all-zero intensity at dose 1. -/
theorem measureCD_widest_run_witness :
    ∃ L : ℕ, measureCD (fun _ => 0) 1 = (L : ℝ) * pixelSize
      ∧ (∀ s l, IsRun (cdPrinted (fun _ => 0) 1) s l → l ≤ L)
      ∧ (L = 0 ∨ ∃ s, IsRun (cdPrinted (fun _ => 0) 1) s L) :=
  measureCD_widest_run (fun _ => 0) 1

/-! ## Claim C7: CD is non-decreasing in dose -/

/-- C7: for a fixed intensity image with nonnegative entries, the
measured CD is non-decreasing in the dose. -/
theorem measureCD_dose_monotone (I : ℕ → ℝ) {d1 d2 : ℝ} (hI : ∀ i, 0 ≤ I i)
    (hd : d1 ≤ d2) : measureCD I d1 ≤ measureCD I d2 := by
  have himp : ∀ i, cdPrinted I d1 i → cdPrinted I d2 i := by
    rintro i ⟨hi, hge⟩
    exact ⟨hi, le_trans hge (mul_le_mul_of_nonneg_left hd (hI _))⟩
  rw [measureCD_eq_cmax, measureCD_eq_cmax]
  have hle : cmax (cdPrinted I d1) 257 ≤ cmax (cdPrinted I d2) 257 := by
    rcases cmax_realized (cdPrinted I d1) with h0 | ⟨s, hrun⟩
    · simp [h0]
    · obtain ⟨hpos, hprint, _, _⟩ := hrun
      obtain ⟨s2, l2, hl2, hrun2⟩ := run_extend himp (fun i hi => hi.1) hpos hprint
      have hb := isRun_le_cmax (fun i hi => hi.1) hrun2
      omega
  exact mul_le_mul_of_nonneg_right (by exact_mod_cast hle) (by norm_num [pixelSize])

/-- Witness for C7 at the all-zero intensity and equal doses. -/
theorem measureCD_dose_monotone_witness :
    (∀ i : ℕ, (0 : ℝ) ≤ (fun _ : ℕ => (0 : ℝ)) i) ∧ (1 : ℝ) ≤ 1 ∧
      measureCD (fun _ => 0) 1 ≤ measureCD (fun _ => 0) 1 :=
  ⟨fun _ => le_rfl, le_rfl,
    measureCD_dose_monotone (fun _ => 0) (fun _ => le_rfl) le_rfl⟩

/-! ## Claim C6: Bossung sweep structure -/

theorem linspace_length (lo hi : ℝ) (steps : ℕ) : (linspace lo hi steps).length = steps := by
  unfold linspace
  split
  · simp [*]
  · rw [List.length_map, List.length_range]

theorem bossung_step (pt : ℝ → ℝ → BossungPoint) (f : ℝ) (dv : List ℝ)
    (q : ℝ → List BossungPoint) :
    ((dv.map fun d => ({ dose := d, points := q d } : BossungCurve)).zip dv).map
        (fun p => ({ dose := p.1.dose, points := p.1.points ++ [pt f p.2] } : BossungCurve))
      = dv.map fun d => { dose := d, points := q d ++ [pt f d] } := by
  induction dv with
  | nil => rfl
  | cons d ds ih => simp [ih]

theorem bossung_foldl (pt : ℝ → ℝ → BossungPoint) (dv : List ℝ) (fl : List ℝ) :
    ∀ q : ℝ → List BossungPoint,
      fl.foldl (fun cs f =>
          ((cs.zip dv).map fun p =>
            ({ dose := p.1.dose, points := p.1.points ++ [pt f p.2] } : BossungCurve)))
        (dv.map fun d => { dose := d, points := q d })
      = dv.map fun d => { dose := d, points := q d ++ fl.map fun f => pt f d } := by
  induction fl with
  | nil => intro q; simp
  | cons f fs ih =>
      intro q
      rw [List.foldl_cons, bossung_step pt f dv q, ih fun d => q d ++ [pt f d]]
      simp

/-- C6: with focusSteps = F and doseSteps = D, both at least 1, the sweep
reports pipelineRuns = F (never F times D: a single pipeline result per
focus feeds the CD measurement at every dose), and returns D curves, each
holding exactly F points in focus order whose focus component equals the
corresponding entry of focusValues. -/
theorem runBossungSweep_spec (mask : ℕ → ℕ → ℝ) (base : PupilParams) (sp : BossungParams)
    (hF : 1 ≤ sp.focusSteps) (hD : 1 ≤ sp.doseSteps) :
    (runBossungSweep mask base sp).pipelineRuns = sp.focusSteps
      ∧ (runBossungSweep mask base sp).focusValues.length = sp.focusSteps
      ∧ (runBossungSweep mask base sp).doseValues.length = sp.doseSteps
      ∧ (runBossungSweep mask base sp).curves
          = (runBossungSweep mask base sp).doseValues.map (fun d =>
              { dose := d,
                points := (runBossungSweep mask base sp).focusValues.map fun f =>
                  { focus := f,
                    cd := measureCD
                      (flattenI (runPipeline mask { base with defocus := f })) d } })
      ∧ ∀ d c f p, (runBossungSweep mask base sp).curves.get? d = some c →
          c.points.get? f = some p →
          (runBossungSweep mask base sp).focusValues.get? f = some p.focus := by
  have hfold : (runBossungSweep mask base sp).curves
      = (linspace sp.focusRange.1 sp.focusRange.2 sp.focusSteps).foldl
          (fun cs f =>
            ((cs.zip (linspace sp.doseRange.1 sp.doseRange.2 sp.doseSteps)).map fun q =>
              { dose := q.1.dose,
                points := q.1.points ++
                  [{ focus := f,
                     cd := measureCD
                       (flattenI (runPipeline mask { base with defocus := f })) q.2 }] }))
          ((linspace sp.doseRange.1 sp.doseRange.2 sp.doseSteps).map fun d =>
            { dose := d, points := [] }) := rfl
  have hcurves : (runBossungSweep mask base sp).curves
      = (linspace sp.doseRange.1 sp.doseRange.2 sp.doseSteps).map fun d =>
          { dose := d,
            points := (linspace sp.focusRange.1 sp.focusRange.2 sp.focusSteps).map fun f =>
              { focus := f,
                cd := measureCD (flattenI (runPipeline mask { base with defocus := f })) d } } := by
    rw [hfold]
    have h2 := bossung_foldl
      (fun f d =>
        ({ focus := f,
           cd := measureCD (flattenI (runPipeline mask { base with defocus := f })) d }
          : BossungPoint))
      (linspace sp.doseRange.1 sp.doseRange.2 sp.doseSteps)
      (linspace sp.focusRange.1 sp.focusRange.2 sp.focusSteps) fun _ => []
    simpa using h2
  refine ⟨linspace_length _ _ _, linspace_length _ _ _, linspace_length _ _ _, hcurves, ?_⟩
  intro d c f p hc hp
  rw [hcurves, List.get?_map] at hc
  cases hdv : (linspace sp.doseRange.1 sp.doseRange.2 sp.doseSteps).get? d with
  | none => rw [hdv] at hc; exact absurd hc (by simp)
  | some dval =>
      rw [hdv] at hc
      simp only [Option.map_some'] at hc
      have hceq := Option.some.inj hc
      rw [← hceq] at hp
      simp only [List.get?_map] at hp
      cases hfv : (linspace sp.focusRange.1 sp.focusRange.2 sp.focusSteps).get? f with
      | none => rw [hfv] at hp; exact absurd hp (by simp)
      | some fval =>
          rw [hfv] at hp
          simp only [Option.map_some'] at hp
          have hpeq := Option.some.inj hp
          rw [show (runBossungSweep mask base sp).focusValues
            = linspace sp.focusRange.1 sp.focusRange.2 sp.focusSteps from rfl, hfv, ← hpeq]

/-- Witness for C6 with one focus step and one dose step on the blank
mask. -/
theorem runBossungSweep_spec_witness :
    (1 : ℕ) ≤ 1 ∧
      (runBossungSweep (fun _ _ => 0) ⟨248, 0.75, 0.5, 0, zernikeZero⟩
          ⟨(0, 0), 1, (1, 1), 1⟩).pipelineRuns = 1 := by
  refine ⟨le_rfl, ?_⟩
  exact (runBossungSweep_spec (fun _ _ => 0) ⟨248, 0.75, 0.5, 0, zernikeZero⟩
    ⟨(0, 0), 1, (1, 1), 1⟩ le_rfl le_rfl).1

/-! ## Pipeline-level lemmas at the fixed grid size N = 256 -/

theorem fft2d_roundtrip256 (inv : Bool) (g : ℕ → ℕ → ℂ) {r c : ℕ} (hr : r < 256)
    (hc : c < 256) : fft2d 256 (!inv) (fft2d 256 inv g) r c = g r c := by
  have h8 : (256 : ℕ) = 2 ^ 8 := by norm_num
  rw [h8]
  exact fft2d_roundtrip inv 8 g (by omega) (by omega)

theorem fft2d_dft256 (inv : Bool) (g : ℕ → ℕ → ℂ) {r c : ℕ} (hr : r < 256) (hc : c < 256) :
    fft2d 256 inv g r c
      = (if inv then ((256 : ℂ))⁻¹ else 1) ^ 2
        * ∑ rp in Finset.range 256, ∑ cp in Finset.range 256,
            g rp cp * dftKernel inv 256 (c * cp) * dftKernel inv 256 (r * rp) := by
  have h8 : (256 : ℕ) = 2 ^ 8 := by norm_num
  rw [h8, fft2d_eq_dft inv 8 g (show r < 2 ^ 8 by omega) (show c < 2 ^ 8 by omega)]
  norm_num

theorem fft2d_parseval256 (g : ℕ → ℕ → ℂ) :
    ∑ r in Finset.range 256, ∑ c in Finset.range 256, Complex.normSq (fft2d 256 false g r c)
      = 65536 * ∑ r in Finset.range 256, ∑ c in Finset.range 256, Complex.normSq (g r c) := by
  have hC := fft2d_parseval 8 g
  norm_num at hC
  apply Complex.ofReal_injective
  push_cast
  rw [hC]

theorem fft2d_zero256 (inv : Bool) {g : ℕ → ℕ → ℂ} (hg : ∀ r < 256, ∀ c < 256, g r c = 0)
    {r c : ℕ} (hr : r < 256) (hc : c < 256) : fft2d 256 inv g r c = 0 := by
  have h8 : (256 : ℕ) = 2 ^ 8 := by norm_num
  rw [h8, fft2d_apply]
  apply fft1d_zero_of inv 8 ?_ (show r < 2 ^ 8 by omega)
  intro r2 hr2
  exact fft1d_zero_of inv 8 (fun c2 hc2 => hg r2 (by omega) c2 (by omega))
    (show c < 2 ^ 8 by omega)

theorem applyPupil_zero_entry (N : ℕ) (p : PupilParams) {g : ℕ → ℕ → ℂ} {r c : ℕ}
    (hg : g r c = 0) : applyPupil N p g r c = 0 := by
  unfold applyPupil
  split
  · rfl
  · split
    · rw [hg, mul_zero]
    · exact hg

theorem applyPupil_normSq_inAperture (N : ℕ) (p : PupilParams) {g : ℕ → ℕ → ℂ} {r c : ℕ}
    (h : ¬(pupilFreqSq N r c > pupilFCutoffSq p)) :
    Complex.normSq (applyPupil N p g r c) = Complex.normSq (g r c) := by
  unfold applyPupil
  rw [if_neg h]
  split
  · rw [Complex.normSq_mul, ← Complex.sq_abs (Complex.exp _), Complex.abs_exp_ofReal_mul_I]
    norm_num
  · rfl

theorem runPipeline_apply (mask : ℕ → ℕ → ℝ) (p : PupilParams) (r c : ℕ) :
    runPipeline mask p r c
      = if 0 < maxIntensity (rawIntensity mask p)
        then rawIntensity mask p r c * (1 / maxIntensity (rawIntensity mask p))
        else rawIntensity mask p r c := by
  by_cases h : 0 < maxIntensity (rawIntensity mask p) <;> simp [runPipeline, h]

theorem gridMax_ge (I : ℕ → ℕ → ℝ) (q : Fin 256 × Fin 256) : I q.1 q.2 ≤ gridMax I := by
  unfold gridMax
  exact Finset.le_sup' (fun q : Fin 256 × Fin 256 => I q.1 q.2) (Finset.mem_univ q)

theorem maxIntensity_nonneg (I : ℕ → ℕ → ℝ) : 0 ≤ maxIntensity I := le_max_left 0 _

theorem rawIntensity_le_max (mask : ℕ → ℕ → ℝ) (p : PupilParams) {r c : ℕ}
    (hr : r < 256) (hc : c < 256) :
    rawIntensity mask p r c ≤ maxIntensity (rawIntensity mask p) := by
  have h1 := gridMax_ge (rawIntensity mask p) (⟨r, hr⟩, ⟨c, hc⟩)
  exact le_trans h1 (le_max_right 0 _)

theorem runPipeline_bounds (mask : ℕ → ℕ → ℝ) (p : PupilParams) {r c : ℕ}
    (hr : r < 256) (hc : c < 256) :
    0 ≤ runPipeline mask p r c ∧ runPipeline mask p r c ≤ 1 := by
  have hIle := rawIntensity_le_max mask p hr hc
  have hI0 : 0 ≤ rawIntensity mask p r c := Complex.normSq_nonneg _
  rw [runPipeline_apply]
  by_cases hM : 0 < maxIntensity (rawIntensity mask p)
  · rw [if_pos hM]
    constructor
    · exact mul_nonneg hI0 (by positivity)
    · calc rawIntensity mask p r c * (1 / maxIntensity (rawIntensity mask p))
          ≤ maxIntensity (rawIntensity mask p) * (1 / maxIntensity (rawIntensity mask p)) :=
            mul_le_mul_of_nonneg_right hIle (by positivity)
        _ = 1 := by field_simp
  · rw [if_neg hM]
    have hM0 : maxIntensity (rawIntensity mask p) = 0 :=
      le_antisymm (not_lt.mp hM) (maxIntensity_nonneg _)
    have hz : rawIntensity mask p r c = 0 := le_antisymm (hM0 ▸ hIle) hI0
    rw [hz]
    norm_num

theorem pipelineField_zero (p : PupilParams) {mask : ℕ → ℕ → ℝ}
    (hm : ∀ r < 256, ∀ c < 256, mask r c = 0) :
    ∀ r < 256, ∀ c < 256, pipelineField mask p r c = 0 := by
  have hb : ∀ r < 256, ∀ c < 256,
      fft2d 256 false (fun r2 c2 => ((mask r2 c2 : ℝ) : ℂ)) r c = 0 := by
    intro r hr c hc
    exact fft2d_zero256 false
      (fun r2 hr2 c2 hc2 => by rw [hm r2 hr2 c2 hc2]; simp) hr hc
  have hcg : ∀ r < 256, ∀ c < 256,
      fftshiftG 256 (fft2d 256 false fun r2 c2 => ((mask r2 c2 : ℝ) : ℂ)) r c = 0 := by
    intro r hr c hc
    exact hb _ (Nat.mod_lt _ (by norm_num)) _ (Nat.mod_lt _ (by norm_num))
  have hd : ∀ r < 256, ∀ c < 256,
      applyPupil 256 p
        (fftshiftG 256 (fft2d 256 false fun r2 c2 => ((mask r2 c2 : ℝ) : ℂ))) r c = 0 := by
    intro r hr c hc
    exact applyPupil_zero_entry 256 p (hcg r hr c hc)
  have he : ∀ r < 256, ∀ c < 256,
      fftshiftG 256 (applyPupil 256 p
        (fftshiftG 256 (fft2d 256 false fun r2 c2 => ((mask r2 c2 : ℝ) : ℂ)))) r c = 0 := by
    intro r hr c hc
    exact hd _ (Nat.mod_lt _ (by norm_num)) _ (Nat.mod_lt _ (by norm_num))
  intro r hr c hc
  exact fft2d_zero256 true he hr hc

theorem runPipeline_zero_mask (p : PupilParams) {mask : ℕ → ℕ → ℝ}
    (hm : ∀ r < 256, ∀ c < 256, mask r c = 0) :
    ∀ r < 256, ∀ c < 256, runPipeline mask p r c = 0 := by
  have hI : ∀ r < 256, ∀ c < 256, rawIntensity mask p r c = 0 := by
    intro r hr c hc
    unfold rawIntensity
    rw [pipelineField_zero p hm r hr c hc]
    simp
  intro r hr c hc
  rw [runPipeline_apply]
  have hgm : gridMax (rawIntensity mask p) = 0 := by
    unfold gridMax
    rw [show (fun q : Fin 256 × Fin 256 => rawIntensity mask p q.1 q.2) = fun _ => 0 from
      funext fun q => hI q.1 q.1.isLt q.2 q.2.isLt]
    exact Finset.sup'_const _ 0
  rw [show maxIntensity (rawIntensity mask p) = 0 by unfold maxIntensity; rw [hgm]; simp,
    if_neg (lt_irrefl 0)]
  exact hI r hr c hc

theorem gridMax_mul (I : ℕ → ℕ → ℝ) {a : ℝ} (ha : 0 ≤ a) :
    gridMax (fun r c => I r c * a) = gridMax I * a := by
  unfold gridMax
  rw [show (fun q : Fin 256 × Fin 256 => I q.1 q.2 * a)
      = ((fun x => x * a) ∘ fun q : Fin 256 × Fin 256 => I q.1 q.2) from rfl,
    ← Finset.comp_sup'_eq_sup'_comp Finset.univ_nonempty (fun x => x * a)
      (fun x y => max_mul_of_nonneg x y ha)]

theorem runPipeline_max_one (p : PupilParams) {mask : ℕ → ℕ → ℝ}
    (hbin : ∀ r < 256, ∀ c < 256, mask r c = 0 ∨ mask r c = 1)
    (hnz : ∃ r, r < 256 ∧ ∃ c, c < 256 ∧ mask r c ≠ 0) :
    maxIntensity (runPipeline mask p) = 1 := by
  obtain ⟨r0, hr0, c0, hc0, hne⟩ := hnz
  have hmask1 : mask r0 c0 = 1 := (hbin r0 hr0 c0 hc0).resolve_left hne
  have hT1 : 1 ≤ ∑ r in Finset.range 256, ∑ c in Finset.range 256, mask r c := by
    have hinner : ∀ r ∈ Finset.range 256, 0 ≤ ∑ c in Finset.range 256, mask r c := by
      intro r hrm
      apply Finset.sum_nonneg
      intro c hcm
      rcases hbin r (Finset.mem_range.mp hrm) c (Finset.mem_range.mp hcm) with h | h <;>
        rw [h] <;> norm_num
    have h1 : mask r0 c0 ≤ ∑ c in Finset.range 256, mask r0 c := by
      apply Finset.single_le_sum ?_ (Finset.mem_range.mpr hc0)
      intro c hcm
      rcases hbin r0 hr0 c (Finset.mem_range.mp hcm) with h | h <;> rw [h] <;> norm_num
    have h2 : (∑ c in Finset.range 256, mask r0 c)
        ≤ ∑ r in Finset.range 256, ∑ c in Finset.range 256, mask r c :=
      Finset.single_le_sum hinner (Finset.mem_range.mpr hr0)
    rw [← hmask1] at *
    linarith
  have hb00 : fft2d 256 false (fun r2 c2 => ((mask r2 c2 : ℝ) : ℂ)) 0 0
      = ((∑ r in Finset.range 256, ∑ c in Finset.range 256, mask r c : ℝ) : ℂ) := by
    rw [fft2d_dft256 false _ (by norm_num) (by norm_num)]
    simp only [Nat.zero_mul, Nat.mul_zero, zero_mul, dftKernel_zero, mul_one]
    push_cast
    simp
  have hfreq0 : pupilFreqSq 256 128 128 = 0 := by
    unfold pupilFreqSq pupilFreq
    norm_num
  have hinap : ¬(pupilFreqSq 256 128 128 > pupilFCutoffSq p) := by
    rw [hfreq0]
    unfold pupilFCutoffSq
    exact not_lt.mpr (mul_self_nonneg _)
  have hshift00 :
      fftshiftG 256 (applyPupil 256 p
          (fftshiftG 256 (fft2d 256 false fun r2 c2 => ((mask r2 c2 : ℝ) : ℂ)))) 0 0
        = applyPupil 256 p
            (fftshiftG 256 (fft2d 256 false fun r2 c2 => ((mask r2 c2 : ℝ) : ℂ))) 128 128 := by
    show applyPupil 256 p _ ((0 + 256 / 2) % 256) ((0 + 256 / 2) % 256) = _
    norm_num
  have hcg128 :
      fftshiftG 256 (fft2d 256 false fun r2 c2 => ((mask r2 c2 : ℝ) : ℂ)) 128 128
        = fft2d 256 false (fun r2 c2 => ((mask r2 c2 : ℝ) : ℂ)) 0 0 := by
    show fft2d 256 false _ ((128 + 256 / 2) % 256) ((128 + 256 / 2) % 256) = _
    norm_num
  have hnsq : Complex.normSq
      (fftshiftG 256 (applyPupil 256 p
          (fftshiftG 256 (fft2d 256 false fun r2 c2 => ((mask r2 c2 : ℝ) : ℂ)))) 0 0)
      = (∑ r in Finset.range 256, ∑ c in Finset.range 256, mask r c) ^ 2 := by
    rw [hshift00, applyPupil_normSq_inAperture 256 p hinap, hcg128, hb00,
      Complex.normSq_ofReal, sq]
  have himg : ∃ r, r < 256 ∧ ∃ c, c < 256 ∧ rawIntensity mask p r c ≠ 0 := by
    by_contra hno
    push_neg at hno
    have hfield0 : ∀ r < 256, ∀ c < 256, pipelineField mask p r c = 0 := by
      intro r hr c hc
      have h2 := hno r hr c hc
      exact Complex.normSq_eq_zero.mp h2
    have he00 : fftshiftG 256 (applyPupil 256 p
        (fftshiftG 256 (fft2d 256 false fun r2 c2 => ((mask r2 c2 : ℝ) : ℂ)))) 0 0 = 0 := by
      have hrt := fft2d_roundtrip256 true
        (fftshiftG 256 (applyPupil 256 p
          (fftshiftG 256 (fft2d 256 false fun r2 c2 => ((mask r2 c2 : ℝ) : ℂ)))))
        (show (0:ℕ) < 256 by norm_num) (show (0:ℕ) < 256 by norm_num)
      rw [show (!true) = false from rfl] at hrt
      rw [← hrt]
      exact fft2d_zero256 false hfield0 (by norm_num) (by norm_num)
    rw [he00] at hnsq
    simp only [map_zero] at hnsq
    nlinarith
  obtain ⟨r1, hr1, c1, hc1, hne1⟩ := himg
  have hpos1 : 0 < rawIntensity mask p r1 c1 :=
    lt_of_le_of_ne (Complex.normSq_nonneg _) (Ne.symm hne1)
  have hg0 : 0 < gridMax (rawIntensity mask p) :=
    lt_of_lt_of_le hpos1 (gridMax_ge (rawIntensity mask p) (⟨r1, hr1⟩, ⟨c1, hc1⟩))
  have hM : 0 < maxIntensity (rawIntensity mask p) :=
    lt_of_lt_of_le hg0 (le_max_right 0 _)
  have hMg : maxIntensity (rawIntensity mask p) = gridMax (rawIntensity mask p) :=
    max_eq_right (le_of_lt hg0)
  have hfun : runPipeline mask p
      = fun r c => rawIntensity mask p r c * (1 / maxIntensity (rawIntensity mask p)) := by
    unfold runPipeline
    rw [if_pos hM]
  rw [hfun]
  rw [show maxIntensity
        (fun r c => rawIntensity mask p r c * (1 / maxIntensity (rawIntensity mask p)))
      = max 0 (gridMax
        (fun r c => rawIntensity mask p r c * (1 / maxIntensity (rawIntensity mask p))))
      from rfl]
  rw [gridMax_mul _ (le_of_lt (one_div_pos.mpr hM)), hMg, mul_one_div,
    div_self (ne_of_gt hg0)]
  exact max_eq_right zero_le_one

/-! ## Claim C2: intensity bounds, max value, blank mask -/

/-- C2: every entry of the returned intensity lies in the unit interval;
for a binary mask with at least one nonzero pixel (parameters in the
documented ranges) the maximum entry equals 1; and for the all-zero mask
every entry is 0 — the normalization branch is skipped, so no division by
zero occurs. -/
theorem runPipeline_intensity_contract (mask : ℕ → ℕ → ℝ) (p : PupilParams) :
    (∀ r < 256, ∀ c < 256, 0 ≤ runPipeline mask p r c ∧ runPipeline mask p r c ≤ 1)
      ∧ ((∀ r < 256, ∀ c < 256, mask r c = 0 ∨ mask r c = 1) →
          (∃ r, r < 256 ∧ ∃ c, c < 256 ∧ mask r c ≠ 0) →
          paramsInRange p → maxIntensity (runPipeline mask p) = 1)
      ∧ ((∀ r < 256, ∀ c < 256, mask r c = 0) →
          ∀ r < 256, ∀ c < 256, runPipeline mask p r c = 0) :=
  ⟨fun r hr c hc => runPipeline_bounds mask p hr hc,
    fun hbin hnz _ => runPipeline_max_one p hbin hnz,
    runPipeline_zero_mask p⟩

/-- Witness for C2 on the impulse mask with the default optics. -/
theorem runPipeline_intensity_contract_witness :
    (0 : ℝ) ≤ runPipeline maskImpulse ⟨248, 0.75, 0.5, 0, zernikeZero⟩ 0 0 ∧
      maxIntensity (runPipeline maskImpulse ⟨248, 0.75, 0.5, 0, zernikeZero⟩) = 1 := by
  refine ⟨((runPipeline_intensity_contract maskImpulse ⟨248, 0.75, 0.5, 0, zernikeZero⟩).1
    0 (by norm_num) 0 (by norm_num)).1, ?_⟩
  refine (runPipeline_intensity_contract maskImpulse ⟨248, 0.75, 0.5, 0, zernikeZero⟩).2.1
    ?_ ⟨128, by norm_num, 128, by norm_num, by norm_num [maskImpulse]⟩
    (by unfold paramsInRange; norm_num)
  intro r hr c hc
  unfold maskImpulse
  split
  · right; rfl
  · left; rfl

/-! ## Claim C9: the impulse-mask scenario -/

theorem dftKernel_abs (inv : Bool) (S e : ℕ) : Complex.abs (dftKernel inv S e) = 1 := by
  unfold dftKernel
  exact Complex.abs_exp_ofReal_mul_I _

theorem dftKernel_128 (inv : Bool) (e : ℕ) : dftKernel inv 256 (e * 128) = (-1 : ℂ) ^ e := by
  rw [dftKernel_nat_mul inv 256 e 128,
    show (256 : ℕ) = 2 * 128 by norm_num, dftKernel_half_neg_one inv (by norm_num)]

theorem neg_one_pow_mul_self (n : ℕ) : ((-1 : ℂ)) ^ n * ((-1 : ℂ)) ^ n = 1 := by
  rw [← pow_add, show n + n = 2 * n by ring, pow_mul]
  norm_num

theorem fft2d_impulse {r c : ℕ} (hr : r < 256) (hc : c < 256) :
    fft2d 256 false (fun r2 c2 => ((maskImpulse r2 c2 : ℝ) : ℂ)) r c = (-1 : ℂ) ^ (r + c) := by
  rw [fft2d_dft256 false _ hr hc]
  have hterm : ∀ rp ∈ Finset.range 256, ∀ cp ∈ Finset.range 256,
      ((maskImpulse rp cp : ℝ) : ℂ) * dftKernel false 256 (c * cp) * dftKernel false 256 (r * rp)
        = if 128 = rp then (if 128 = cp then
            dftKernel false 256 (c * cp) * dftKernel false 256 (r * rp) else 0) else 0 := by
    intro rp _ cp _
    unfold maskImpulse
    by_cases h1 : rp = 128 <;> by_cases h2 : cp = 128 <;>
      simp [h1, h2, eq_comm]
  rw [Finset.sum_congr rfl fun rp hrp =>
    Finset.sum_congr rfl fun cp hcp => hterm rp hrp cp hcp]
  have hinner : ∀ rp ∈ Finset.range 256,
      (∑ cp in Finset.range 256, if 128 = rp then (if 128 = cp then
          dftKernel false 256 (c * cp) * dftKernel false 256 (r * rp) else 0) else 0)
        = if 128 = rp then
            dftKernel false 256 (c * 128) * dftKernel false 256 (r * rp) else 0 := by
    intro rp _
    by_cases h : 128 = rp
    · simp only [if_pos h]
      rw [Finset.sum_ite_eq _ 128 _, if_pos (by norm_num : (128 : ℕ) ∈ Finset.range 256)]
    · simp [if_neg h]
  rw [Finset.sum_congr rfl hinner, Finset.sum_ite_eq _ 128 _,
    if_pos (by norm_num : (128 : ℕ) ∈ Finset.range 256), dftKernel_128, dftKernel_128]
  rw [← pow_add, show c + r = r + c by ring]
  norm_num

theorem impulse_e_eq {r c : ℕ} (hr : r < 256) (hc : c < 256) :
    fftshiftG 256 (applyPupil 256 paramsImpulse
        (fftshiftG 256 (fft2d 256 false fun r2 c2 => ((maskImpulse r2 c2 : ℝ) : ℂ)))) r c
      = if pupilFreqSq 256 ((r + 128) % 256) ((c + 128) % 256) > pupilFCutoffSq paramsImpulse
        then 0 else (-1 : ℂ) ^ (r + c) := by
  have hshift : fftshiftG 256 (applyPupil 256 paramsImpulse
      (fftshiftG 256 (fft2d 256 false fun r2 c2 => ((maskImpulse r2 c2 : ℝ) : ℂ)))) r c
      = applyPupil 256 paramsImpulse
        (fftshiftG 256 (fft2d 256 false fun r2 c2 => ((maskImpulse r2 c2 : ℝ) : ℂ)))
        ((r + 128) % 256) ((c + 128) % 256) := rfl
  rw [hshift]
  by_cases hcond : pupilFreqSq 256 ((r + 128) % 256) ((c + 128) % 256)
      > pupilFCutoffSq paramsImpulse
  · rw [if_pos hcond, applyPupil_block hcond]
  · rw [if_neg hcond, applyPupil_pass rfl rfl hcond]
    have hinvol : fftshiftG 256 (fft2d 256 false fun r2 c2 => ((maskImpulse r2 c2 : ℝ) : ℂ))
        ((r + 128) % 256) ((c + 128) % 256)
        = fft2d 256 false (fun r2 c2 => ((maskImpulse r2 c2 : ℝ) : ℂ)) r c := by
      show fft2d 256 false _ (((r + 128) % 256 + 128) % 256) (((c + 128) % 256 + 128) % 256) = _
      rw [show ((r + 128) % 256 + 128) % 256 = r from
          shift_add_half_involutive (by norm_num) hr,
        show ((c + 128) % 256 + 128) % 256 = c from
          shift_add_half_involutive (by norm_num) hc]
    rw [hinvol, fft2d_impulse hr hc]

set_option maxRecDepth 8000 in
theorem sum_range_shift128 {M : Type*} [AddCommMonoid M] (f : ℕ → M) :
    ∑ r in Finset.range 256, f ((r + 128) % 256) = ∑ r in Finset.range 256, f r := by
  rw [← Fin.sum_univ_eq_sum_range (fun r => f ((r + 128) % 256)) 256,
    ← Fin.sum_univ_eq_sum_range f 256]
  refine Fintype.sum_equiv (Equiv.addRight (128 : Fin 256))
    (fun x => f ((↑x + 128) % 256)) (fun y => f ↑y) fun x => ?_
  refine congrArg f ?_
  show ((x : ℕ) + 128) % 256 = ((x + (128 : Fin 256) : Fin 256) : ℕ)
  rw [Fin.val_add]
  rfl

open Classical in
theorem impulse_indicator_sum :
    ∑ r in Finset.range 256, ∑ c in Finset.range 256,
        (if pupilFreqSq 256 ((r + 128) % 256) ((c + 128) % 256) > pupilFCutoffSq paramsImpulse
          then (0 : ℝ) else 1)
      = (apertureCount paramsImpulse : ℝ) := by
  rw [Finset.sum_congr rfl fun r _ => sum_range_shift128 fun cc =>
    if pupilFreqSq 256 ((r + 128) % 256) cc > pupilFCutoffSq paramsImpulse then (0 : ℝ) else 1]
  rw [sum_range_shift128 fun rr => ∑ c in Finset.range 256,
    if pupilFreqSq 256 rr c > pupilFCutoffSq paramsImpulse then (0 : ℝ) else 1]
  have hcard : (apertureCount paramsImpulse : ℝ)
      = ∑ q : Fin 256 × Fin 256,
          (if ¬(pupilFreqSq 256 (q.1 : ℕ) (q.2 : ℕ) > pupilFCutoffSq paramsImpulse)
            then (1 : ℝ) else 0) := by
    unfold apertureCount
    rw [Finset.sum_boole]
  rw [hcard, Fintype.sum_prod_type,
    ← Fin.sum_univ_eq_sum_range (fun rr => ∑ c in Finset.range 256,
      if pupilFreqSq 256 rr c > pupilFCutoffSq paramsImpulse then (0 : ℝ) else 1) 256]
  refine Finset.sum_congr rfl fun x _ => ?_
  rw [← Fin.sum_univ_eq_sum_range (fun cc =>
    if pupilFreqSq 256 (x : ℕ) cc > pupilFCutoffSq paramsImpulse then (0 : ℝ) else 1) 256]
  refine Finset.sum_congr rfl fun y _ => ?_
  by_cases hP : pupilFreqSq 256 (x : ℕ) (y : ℕ) > pupilFCutoffSq paramsImpulse
  · rw [if_pos hP, if_neg (not_not_intro hP)]
  · rw [if_neg hP, if_pos hP]

open Classical in
theorem impulse_indicator_sum_complex :
    ∑ r in Finset.range 256, ∑ c in Finset.range 256,
        (if pupilFreqSq 256 ((r + 128) % 256) ((c + 128) % 256) > pupilFCutoffSq paramsImpulse
          then (0 : ℂ) else 1)
      = ((apertureCount paramsImpulse : ℝ) : ℂ) := by
  rw [← impulse_indicator_sum]
  push_cast
  refine Finset.sum_congr rfl fun r _ => Finset.sum_congr rfl fun c _ => ?_
  split <;> norm_num

open Classical in
theorem impulse_sum_intensity :
    ∑ r in Finset.range 256, ∑ c in Finset.range 256,
        rawIntensity maskImpulse paramsImpulse r c
      = (apertureCount paramsImpulse : ℝ) / 65536 := by
  have hpars := fft2d_parseval256 (fft2d 256 true
    (fftshiftG 256 (applyPupil 256 paramsImpulse
      (fftshiftG 256 (fft2d 256 false fun r2 c2 => ((maskImpulse r2 c2 : ℝ) : ℂ))))))
  have hlhs : ∑ r in Finset.range 256, ∑ c in Finset.range 256,
      Complex.normSq (fft2d 256 false (fft2d 256 true
        (fftshiftG 256 (applyPupil 256 paramsImpulse
          (fftshiftG 256 (fft2d 256 false fun r2 c2 => ((maskImpulse r2 c2 : ℝ) : ℂ)))))) r c)
      = (apertureCount paramsImpulse : ℝ) := by
    rw [Finset.sum_congr rfl fun r hrm => Finset.sum_congr rfl fun c hcm => by
      rw [show fft2d 256 false (fft2d 256 true
          (fftshiftG 256 (applyPupil 256 paramsImpulse
            (fftshiftG 256 (fft2d 256 false fun r2 c2 => ((maskImpulse r2 c2 : ℝ) : ℂ)))))) r c
          = fftshiftG 256 (applyPupil 256 paramsImpulse
            (fftshiftG 256 (fft2d 256 false fun r2 c2 => ((maskImpulse r2 c2 : ℝ) : ℂ)))) r c from by
            have hrt := fft2d_roundtrip256 true
              (fftshiftG 256 (applyPupil 256 paramsImpulse
                (fftshiftG 256 (fft2d 256 false fun r2 c2 => ((maskImpulse r2 c2 : ℝ) : ℂ)))))
              (Finset.mem_range.mp hrm) (Finset.mem_range.mp hcm)
            rwa [show (!true) = false from rfl] at hrt,
        impulse_e_eq (Finset.mem_range.mp hrm) (Finset.mem_range.mp hcm)]]
    rw [← impulse_indicator_sum]
    refine Finset.sum_congr rfl fun r _ => Finset.sum_congr rfl fun c _ => ?_
    split
    · simp
    · rw [show Complex.normSq ((-1 : ℂ) ^ (r + c)) = 1 by
        rw [map_pow Complex.normSq]; norm_num]
  rw [hlhs] at hpars
  have h2 : ∑ r in Finset.range 256, ∑ c in Finset.range 256,
      rawIntensity maskImpulse paramsImpulse r c
      = ∑ r in Finset.range 256, ∑ c in Finset.range 256,
          Complex.normSq (fft2d 256 true
            (fftshiftG 256 (applyPupil 256 paramsImpulse
              (fftshiftG 256 (fft2d 256 false fun r2 c2 => ((maskImpulse r2 c2 : ℝ) : ℂ))))) r c)
      := rfl
  rw [h2]
  linarith

open Classical in
theorem impulse_I_center :
    rawIntensity maskImpulse paramsImpulse 128 128
      = ((apertureCount paramsImpulse : ℝ) / 65536) ^ 2 := by
  have hfield : pipelineField maskImpulse paramsImpulse 128 128
      = (((apertureCount paramsImpulse : ℝ) / 65536 : ℝ) : ℂ) := by
    show fft2d 256 true
      (fftshiftG 256 (applyPupil 256 paramsImpulse
        (fftshiftG 256 (fft2d 256 false fun r2 c2 => ((maskImpulse r2 c2 : ℝ) : ℂ))))) 128 128 = _
    rw [fft2d_dft256 true _ (by norm_num) (by norm_num)]
    have hterm : ∀ rp ∈ Finset.range 256, ∀ cp ∈ Finset.range 256,
        fftshiftG 256 (applyPupil 256 paramsImpulse
            (fftshiftG 256 (fft2d 256 false fun r2 c2 => ((maskImpulse r2 c2 : ℝ) : ℂ)))) rp cp
            * dftKernel true 256 (128 * cp) * dftKernel true 256 (128 * rp)
          = if pupilFreqSq 256 ((rp + 128) % 256) ((cp + 128) % 256)
              > pupilFCutoffSq paramsImpulse then (0 : ℂ) else 1 := by
      intro rp hrp cp hcp
      rw [impulse_e_eq (Finset.mem_range.mp hrp) (Finset.mem_range.mp hcp),
        show 128 * cp = cp * 128 by ring, show 128 * rp = rp * 128 by ring,
        dftKernel_128, dftKernel_128]
      split
      · simp
      · rw [mul_assoc, ← pow_add, show cp + rp = rp + cp by ring, neg_one_pow_mul_self]
    rw [Finset.sum_congr rfl fun rp hrp =>
      Finset.sum_congr rfl fun cp hcp => hterm rp hrp cp hcp, impulse_indicator_sum_complex,
      show ((if true = true then ((256 : ℂ))⁻¹ else 1) ^ 2) = (1 / 65536 : ℂ) by norm_num]
    push_cast
    ring
  unfold rawIntensity
  rw [hfield, Complex.normSq_ofReal, sq]

open Classical in
theorem impulse_I_le {r c : ℕ} (hr : r < 256) (hc : c < 256) :
    rawIntensity maskImpulse paramsImpulse r c
      ≤ ((apertureCount paramsImpulse : ℝ) / 65536) ^ 2 := by
  have habs : Complex.abs (pipelineField maskImpulse paramsImpulse r c)
      ≤ (apertureCount paramsImpulse : ℝ) / 65536 := by
    show Complex.abs (fft2d 256 true
      (fftshiftG 256 (applyPupil 256 paramsImpulse
        (fftshiftG 256 (fft2d 256 false fun r2 c2 => ((maskImpulse r2 c2 : ℝ) : ℂ))))) r c) ≤ _
    rw [fft2d_dft256 true _ hr hc, map_mul Complex.abs]
    have hscale : Complex.abs ((if true = true then ((256 : ℂ))⁻¹ else 1) ^ 2)
        = 1 / 65536 := by
      rw [if_pos rfl, map_pow, map_inv₀]
      norm_num [Complex.abs_ofNat]
    rw [hscale]
    have hsumabs : Complex.abs (∑ rp in Finset.range 256, ∑ cp in Finset.range 256,
        fftshiftG 256 (applyPupil 256 paramsImpulse
            (fftshiftG 256 (fft2d 256 false fun r2 c2 => ((maskImpulse r2 c2 : ℝ) : ℂ)))) rp cp
            * dftKernel true 256 (c * cp) * dftKernel true 256 (r * rp))
        ≤ (apertureCount paramsImpulse : ℝ) := by
      refine le_trans (AbsoluteValue.sum_le _ _ _) ?_
      refine le_trans (Finset.sum_le_sum fun rp _ => AbsoluteValue.sum_le _ _ _) ?_
      apply le_of_eq
      rw [← impulse_indicator_sum]
      refine Finset.sum_congr rfl fun rp hrp => Finset.sum_congr rfl fun cp hcp => ?_
      rw [map_mul, map_mul, dftKernel_abs, dftKernel_abs, mul_one, mul_one,
        impulse_e_eq (Finset.mem_range.mp hrp) (Finset.mem_range.mp hcp)]
      split
      · simp
      · rw [map_pow]
        norm_num
    calc (1 / 65536 : ℝ) * Complex.abs (∑ rp in Finset.range 256, ∑ cp in Finset.range 256,
          fftshiftG 256 (applyPupil 256 paramsImpulse
              (fftshiftG 256 (fft2d 256 false fun r2 c2 => ((maskImpulse r2 c2 : ℝ) : ℂ)))) rp cp
              * dftKernel true 256 (c * cp) * dftKernel true 256 (r * rp))
        ≤ (1 / 65536 : ℝ) * (apertureCount paramsImpulse : ℝ) :=
          mul_le_mul_of_nonneg_left hsumabs (by norm_num)
      _ = (apertureCount paramsImpulse : ℝ) / 65536 := by ring
  unfold rawIntensity
  rw [← Complex.sq_abs]
  exact pow_le_pow_left (AbsoluteValue.nonneg _ _) habs 2

set_option maxRecDepth 8000 in
open Classical in
theorem apertureCount_two : 2 ≤ apertureCount paramsImpulse := by
  unfold apertureCount
  refine Finset.one_lt_card.mpr ?_
  refine ⟨(⟨128, by norm_num⟩, ⟨128, by norm_num⟩), ?_,
    (⟨128, by norm_num⟩, ⟨129, by norm_num⟩), ?_, ?_⟩
  · rw [Finset.mem_filter]
    refine ⟨Finset.mem_univ _, ?_⟩
    show ¬(pupilFreqSq 256 128 128 > pupilFCutoffSq paramsImpulse)
    unfold pupilFreqSq pupilFreq pupilDf pixelSize pupilFCutoffSq pupilFCutoff paramsImpulse
    norm_num
  · rw [Finset.mem_filter]
    refine ⟨Finset.mem_univ _, ?_⟩
    show ¬(pupilFreqSq 256 128 129 > pupilFCutoffSq paramsImpulse)
    unfold pupilFreqSq pupilFreq pupilDf pixelSize pupilFCutoffSq pupilFCutoff paramsImpulse
    norm_num
  · simp

open Classical in
/-- Refutation of the uniform-intensity reading of claim C9: for the impulse
mask at (128,128) with NA=1.4, sigma=1, lambda=193, defocus=0 and zero
Zernike coefficients, the normalized intensity is NOT within 1e-6 of 1 at
every pixel.  The hard aperture cutoff NA(1+sigma)/lambda is about 0.0145
cycles/nm while the shifted grid reaches 0.0362 cycles/nm, so the pupil
zeroes part of the flat impulse spectrum; by Parseval the remaining energy
is too small for every pixel to sit near the maximum. -/
theorem impulse_not_within_tolerance :
    ¬(∀ r, r < 256 → ∀ c, c < 256 →
        |runPipeline maskImpulse paramsImpulse r c - 1| ≤ 1e-6) := by
  intro H
  set M := maxIntensity (rawIntensity maskImpulse paramsImpulse) with hMdef
  have hKr : (2 : ℝ) ≤ (apertureCount paramsImpulse : ℝ) := by
    exact_mod_cast apertureCount_two
  have hKpos : (0 : ℝ) < (apertureCount paramsImpulse : ℝ) := by linarith
  have hMge : ((apertureCount paramsImpulse : ℝ) / 65536) ^ 2 ≤ M := by
    rw [hMdef, ← impulse_I_center]
    exact rawIntensity_le_max _ _ (by norm_num) (by norm_num)
  have hc2 : (0 : ℝ) < ((apertureCount paramsImpulse : ℝ) / 65536) ^ 2 :=
    pow_pos (div_pos hKpos (by norm_num)) 2
  have hMpos : 0 < M := lt_of_lt_of_le hc2 hMge
  have hIge : ∀ r, r < 256 → ∀ c, c < 256 →
      (1 - 1e-6) * M ≤ rawIntensity maskImpulse paramsImpulse r c := by
    intro r hr c hc
    have habs := H r hr c hc
    rw [runPipeline_apply, ← hMdef, if_pos hMpos] at habs
    have hge : (1 : ℝ) - 1e-6
        ≤ rawIntensity maskImpulse paramsImpulse r c * (1 / M) := by
      have h1 := (abs_le.mp habs).1
      linarith
    have h2 := mul_le_mul_of_nonneg_right hge (le_of_lt hMpos)
    rwa [mul_assoc, one_div, inv_mul_cancel₀ (ne_of_gt hMpos), mul_one] at h2
  have hlow : (65536 : ℝ) * ((1 - 1e-6) * M)
      ≤ (apertureCount paramsImpulse : ℝ) / 65536 := by
    rw [← impulse_sum_intensity]
    calc (65536 : ℝ) * ((1 - 1e-6) * M)
        = ∑ r in Finset.range 256, ∑ c in Finset.range 256, (1 - 1e-6) * M := by
          simp only [Finset.sum_const, Finset.card_range, nsmul_eq_mul]
          push_cast
          ring
      _ ≤ _ := Finset.sum_le_sum fun r hrm => Finset.sum_le_sum fun c hcm =>
          hIge r (Finset.mem_range.mp hrm) c (Finset.mem_range.mp hcm)
  have hstep : (65536 : ℝ)
        * ((1 - 1e-6) * (((apertureCount paramsImpulse : ℝ) / 65536) ^ 2))
      ≤ (apertureCount paramsImpulse : ℝ) / 65536 := by
    refine le_trans ?_ hlow
    nlinarith [hMge]
  nlinarith [hstep, hKr, hKpos,
    mul_le_mul_of_nonneg_left hKr (le_of_lt hKpos)]

open Classical in
/-- CLAIM C9 (amended): for the impulse mask with a single 1 at (128,128),
run with NA=1.4, sigma=1, lambda=193, defocus=0 and all Zernike coefficients
zero, the normalized intensity returned by runPipeline equals 1 exactly at
the center pixel (128,128); the literal claim that it is within 1e-6 of 1 at
EVERY pixel is false on the code, because the aperture cuts the corners of
the impulse's flat spectrum. -/
theorem impulse_center_exact_one :
    runPipeline maskImpulse paramsImpulse 128 128 = 1 := by
  have hKr : (2 : ℝ) ≤ (apertureCount paramsImpulse : ℝ) := by
    exact_mod_cast apertureCount_two
  have hKpos : (0 : ℝ) < (apertureCount paramsImpulse : ℝ) := by linarith
  have hcenter := impulse_I_center
  have hMge : ((apertureCount paramsImpulse : ℝ) / 65536) ^ 2
      ≤ maxIntensity (rawIntensity maskImpulse paramsImpulse) := by
    rw [← hcenter]
    exact rawIntensity_le_max _ _ (by norm_num) (by norm_num)
  have hMle : maxIntensity (rawIntensity maskImpulse paramsImpulse)
      ≤ ((apertureCount paramsImpulse : ℝ) / 65536) ^ 2 := by
    unfold maxIntensity
    apply max_le
    · positivity
    · unfold gridMax
      apply Finset.sup'_le
      intro q _
      exact impulse_I_le q.1.isLt q.2.isLt
  have hMeq : maxIntensity (rawIntensity maskImpulse paramsImpulse)
      = ((apertureCount paramsImpulse : ℝ) / 65536) ^ 2 := le_antisymm hMle hMge
  have hc2 : (0 : ℝ) < ((apertureCount paramsImpulse : ℝ) / 65536) ^ 2 :=
    pow_pos (div_pos hKpos (by norm_num)) 2
  have hMpos : 0 < maxIntensity (rawIntensity maskImpulse paramsImpulse) := by
    rw [hMeq]
    exact hc2
  rw [runPipeline_apply, if_pos hMpos, hcenter, hMeq, mul_one_div,
    div_self (ne_of_gt hc2)]

end LithoSpec
